import Mathlib

/-!
Verification of the watcom debugger core (breakpoint engine, module manager,
DWARF line program, LEB128 decoding, single-step dispatch, DWARF discovery)
against its natural-language specification.

The Python source is shallowly embedded: strings are modelled as lists of
character codes (`List Nat`), Python dicts as association lists with
first-match lookup, in-place replacement and append-if-absent insertion
(matching dict semantics observably), process memory and registers as total
functions, and machine integers as `Nat`/`Int`.
-/

set_option maxHeartbeats 1000000

namespace Dgb

/-- Character codes of a Lean string literal; used to write the byte-level
strings the Python source manipulates. -/
def strBytes (s : String) : List Nat :=
  s.data.map Char.toNat

/-- ASCII model of Python `str.lower()` applied to one character code. -/
def asciiLower (c : Nat) : Nat :=
  if 65 ≤ c ∧ c ≤ 90 then c + 32 else c

/-- Model of Python `str.lower()`. -/
def lower (s : List Nat) : List Nat :=
  s.map asciiLower

/-- Path separators recognised by `pathlib` on Windows. -/
def isSep (c : Nat) : Bool :=
  c = 47 ∨ c = 92

/-- Model of `pathlib.Path(s).name`: the segment after the last separator. -/
def basename (s : List Nat) : List Nat :=
  (s.reverse.takeWhile (fun c => ! isSep c)).reverse

/-- Model of `str(Path(a) / b)` on Windows: join with a backslash (code 92). -/
def pathJoin (a b : List Nat) : List Nat :=
  a ++ 92 :: b

/-- Model of Python `str.strip()` (ASCII whitespace). -/
def isSpaceByte (c : Nat) : Bool :=
  c = 32 ∨ c = 9 ∨ c = 10 ∨ c = 13

/-- Model of Python `str.strip()`. -/
def strip (s : List Nat) : List Nat :=
  ((s.dropWhile isSpaceByte).reverse.dropWhile isSpaceByte).reverse

/-- Model of Python `s.split(c, 1)` when `c` occurs in `s`: the parts
before and after the first occurrence. -/
def splitFirstAt (c : Nat) : List Nat → (List Nat × List Nat)
  | [] => ([], [])
  | x :: rest =>
    if x = c then ([], rest)
    else
      let p := splitFirstAt c rest
      (x :: p.1, p.2)

/-- Value of one hex digit character code, if it is a hex digit. -/
def hexDigit (c : Nat) : Option Nat :=
  if 48 ≤ c ∧ c ≤ 57 then some (c - 48)
  else if 97 ≤ c ∧ c ≤ 102 then some (c - 87)
  else if 65 ≤ c ∧ c ≤ 70 then some (c - 55)
  else none

/-- Value of one decimal digit character code, if it is one. -/
def decDigit (c : Nat) : Option Nat :=
  if 48 ≤ c ∧ c ≤ 57 then some (c - 48) else none

def digitsToNat (base : Nat) (digit : Nat → Option Nat) : List Nat → Nat → Option Nat
  | [], acc => some acc
  | c :: rest, acc =>
    match digit c with
    | some d => digitsToNat base digit rest (acc * base + d)
    | none => none

/-- Model of Python `int(s, 16)` on well-formed non-negative inputs: an
optional `0x`/`0X` prefix followed by at least one hex digit. -/
def pyIntHex (s : List Nat) : Option Nat :=
  let body :=
    match s with
    | 48 :: 120 :: rest => rest
    | 48 :: 88 :: rest => rest
    | other => other
  if body = [] then none else digitsToNat 16 hexDigit body 0

/-- Model of Python `int(s, 10)` on well-formed non-negative inputs. -/
def pyIntDec (s : List Nat) : Option Nat :=
  if s = [] then none else digitsToNat 10 decDigit s 0

/-! ## Python dict model

Association lists with the observable behaviour of `dict`: lookup by key,
in-place replacement on assignment to an existing key, append on assignment
to a fresh key, deletion of the entry with the key. -/

def dictFind {α β : Type} [DecidableEq α] : List (α × β) → α → Option β
  | [], _ => none
  | e :: rest, k => if e.1 = k then some e.2 else dictFind rest k

def dictSet {α β : Type} [DecidableEq α] : List (α × β) → α → β → List (α × β)
  | [], k, v => [(k, v)]
  | e :: rest, k, v => if e.1 = k then (k, v) :: rest else e :: dictSet rest k v

def dictRemove {α β : Type} [DecidableEq α] : List (α × β) → α → List (α × β)
  | [], _ => []
  | e :: rest, k => if e.1 = k then rest else e :: dictRemove rest k

def dictHasKey {α β : Type} [DecidableEq α] (l : List (α × β)) (k : α) : Bool :=
  (dictFind l k).isSome

/-- Assignment `d[k] = v` guarded by `if k not in d` (used for the
line-to-address cache, which keeps the first address for each line). -/
def dictSetIfAbsent {α β : Type} [DecidableEq α] (l : List (α × β)) (k : α) (v : β) :
    List (α × β) :=
  if dictHasKey l k then l else l ++ [(k, v)]

/-! ## Line program (src/dgb/dwarf/line_info.py) -/

/-- `SourceLocation` dataclass. -/
structure SourceLocation where
  file : List Nat
  line : Nat
  column : Nat
  address : Nat
deriving DecidableEq, Repr

/-- The two caches `LineInfo` builds:
`_address_to_line_cache : {address: SourceLocation}` and
`_line_to_address_cache : {(file, line): address}`. -/
structure Caches where
  addr : List (Nat × SourceLocation)
  line : List ((List Nat × Nat) × Nat)
deriving DecidableEq, Repr

/-- One row of the DWARF line-program state machine (`entry.state`). -/
structure LPState where
  end_sequence : Bool
  file : Nat
  line : Nat
  column : Nat
  address : Nat
deriving DecidableEq, Repr

/-- A line-program entry; `state` is `None` for non-row entries. -/
structure LPEntry where
  state : Option LPState
deriving DecidableEq, Repr

/-- A file entry of the line-program header file table. -/
structure FileEntry where
  name : List Nat
  dir_index : Nat
deriving DecidableEq, Repr

def unknownName : List Nat := strBytes "unknown"

/-- `LineInfo._build_file_paths`: index 0 holds the `"unknown"` placeholder,
then one built path per file entry (dir-index 0 joins the CU `comp_dir` when
present, otherwise the bare name; other indices join the include directory
when in range). -/
def build_file_paths (file_entries : List FileEntry) (include_dirs : List (List Nat))
    (comp_dir : Option (List Nat)) : List (List Nat) :=
  unknownName :: file_entries.map (fun fe =>
    if fe.dir_index = 0 then
      match comp_dir with
      | some cd => pathJoin cd fe.name
      | none => fe.name
    else if fe.dir_index - 1 < include_dirs.length then
      pathJoin (include_dirs.getD (fe.dir_index - 1) []) fe.name
    else fe.name)

/-- `LineInfo._build_file_paths_watcom`: the CU `DW_AT_name` (when present)
fills slots 1 and 2; everything else is `"unknown"`. -/
def build_file_paths_watcom (cu_name : Option (List Nat)) : List (List Nat) :=
  match cu_name with
  | some n => [unknownName, n, n]
  | none => [unknownName, unknownName, unknownName]

/-- File-path selection inside `_build_cache`:
`file_index = state.file - 1`; in range uses the table, otherwise
`"unknown"`. -/
def selectFilePath (filePaths : List (List Nat)) (file : Nat) : List Nat :=
  if 1 ≤ file ∧ file - 1 < filePaths.length then filePaths.getD (file - 1) unknownName
  else unknownName

/-- The `SourceLocation` recorded for one row. -/
def rowLoc (filePaths : List (List Nat)) (st : LPState) : SourceLocation :=
  { file := selectFilePath filePaths st.file
    line := st.line
    column := st.column
    address := st.address }

/-- Processing of one line-program entry inside `_build_cache`: skip entries
without state and end-of-sequence rows, record the row in the
address-to-line cache (overwriting) and in the line-to-address cache
(first address per `(file, line)` key). -/
def processEntry (filePaths : List (List Nat)) (c : Caches) (e : LPEntry) : Caches :=
  match e.state with
  | none => c
  | some st =>
    if st.end_sequence then c
    else
      let loc := rowLoc filePaths st
      { addr := dictSet c.addr st.address loc
        line := dictSetIfAbsent c.line (loc.file, st.line) st.address }

/-- The data `_build_cache` consumes for one compilation unit: its built
file-path table and its line-program entries. -/
structure CUData where
  filePaths : List (List Nat)
  entries : List LPEntry
deriving DecidableEq, Repr

def processCU (c : Caches) (cu : CUData) : Caches :=
  cu.entries.foldl (processEntry cu.filePaths) c

/-- `LineInfo._build_cache` over the listed compilation units. -/
def buildCache (cus : List CUData) : Caches :=
  cus.foldl processCU { addr := [], line := [] }

/-- The rows of a line program actually recorded by `_build_cache` (state
present and not an end-of-sequence marker), as the source locations built
for them. -/
def rowsAux (filePaths : List (List Nat)) (entries : List LPEntry) :
    List SourceLocation :=
  entries.filterMap (fun e =>
    match e.state with
    | none => none
    | some st => if st.end_sequence then none else some (rowLoc filePaths st))

def recordedOfCU (cu : CUData) : List SourceLocation :=
  rowsAux cu.filePaths cu.entries

def recordedRows (cus : List CUData) : List SourceLocation :=
  (cus.map recordedOfCU).flatten

/-! ### address_to_line -/

/-- Model of Python `sorted` on the cache keys: ascending order. -/
def sortNat (l : List Nat) : List Nat :=
  List.insertionSort (· ≤ ·) l

/-- The scanning loop of `address_to_line`: walk the sorted keys keeping the
last key `≤ address`, stopping at the first larger key. Queries are `Int`
because callers pass possibly-negative relative addresses. -/
def closestScan (address : Int) : List Nat → Option Nat → Option Nat
  | [], closest => closest
  | a :: rest, closest =>
    if (a : Int) ≤ address then closestScan address rest (some a) else closest

/-- `LineInfo.address_to_line`: exact cache hit, otherwise the closest cached
address at or below the query. -/
def address_to_line (cache : List (Nat × SourceLocation)) (address : Int) :
    Option SourceLocation :=
  match (cache.find? (fun e => (e.1 : Int) = address)) with
  | some e => some e.2
  | none =>
    match closestScan address (sortNat (cache.map Prod.fst)) none with
    | some ca => dictFind cache ca
    | none => none

/-! ### line_to_address -/

/-- `LineInfo.line_to_address`: exact `(file, line)` key, then basename
match, then case-insensitive full-path or basename match. -/
def line_to_address (cache : List ((List Nat × Nat) × Nat)) (file : List Nat)
    (line : Nat) : Option Nat :=
  match dictFind cache (file, line) with
  | some addr => some addr
  | none =>
    let file_basename := basename file
    match cache.find? (fun e => basename e.1.1 = file_basename ∧ e.1.2 = line) with
    | some e => some e.2
    | none =>
      let file_lower := lower file
      let file_basename_lower := lower file_basename
      match cache.find? (fun e =>
          (lower e.1.1 = file_lower ∨ lower (basename e.1.1) = file_basename_lower)
            ∧ e.1.2 = line) with
      | some e => some e.2
      | none => none

/-! ## Module manager (src/dgb/debugger/module_manager.py) -/

/-- `Module` dataclass. The pyelftools parser object is omitted (it is only
a handle); the line info is the cache pair built by `LineInfo`. -/
structure Module where
  name : List Nat
  base_address : Nat
  path : List Nat
  size : Nat
  has_debug_info : Bool
  line_info : Option Caches
  code_section_offset : Nat
deriving DecidableEq, Repr

/-- `ModuleManager` state: `modules : {base_address: Module}` and
`modules_by_name : {lowercased name: Module}`. -/
structure MMState where
  modules : List (Nat × Module)
  modules_by_name : List (List Nat × Module)
deriving DecidableEq, Repr

/-- The debug information `_load_debug_info` would attach to a freshly
loaded module: code-section offset, whether DWARF was found, and the line
caches. `_load_debug_info` reads the on-disk image, so its outcome is an
input of the model. -/
structure DebugLoad where
  code_section_offset : Nat
  has_debug_info : Bool
  line_info : Option Caches
deriving DecidableEq, Repr

/-- `ModuleManager.on_module_loaded`: build the module record, store it
under its base address and under its lowercased name, then attach the debug
information `_load_debug_info` finds. -/
def on_module_loaded (mm : MMState) (name : List Nat) (base_address : Nat)
    (path : List Nat) (size : Nat) (dbg : DebugLoad) : MMState :=
  let module : Module :=
    { name := name
      base_address := base_address
      path := path
      size := size
      has_debug_info := dbg.has_debug_info
      line_info := dbg.line_info
      code_section_offset := dbg.code_section_offset }
  { modules := dictSet mm.modules base_address module
    modules_by_name := dictSet mm.modules_by_name (lower name) module }

/-- `ModuleManager.on_module_unloaded`: drop the entry for the base address
and, when its lowercased name is a key of the name map, drop that entry
too — regardless of which module the name map currently holds there. -/
def on_module_unloaded (mm : MMState) (base_address : Nat) : MMState :=
  match dictFind mm.modules base_address with
  | none => mm
  | some module =>
    { modules := dictRemove mm.modules base_address
      modules_by_name :=
        if dictHasKey mm.modules_by_name (lower module.name) then
          dictRemove mm.modules_by_name (lower module.name)
        else mm.modules_by_name }

/-- `ModuleManager.get_module_by_name` (case-insensitive). -/
def get_module_by_name (mm : MMState) (name : List Nat) : Option Module :=
  dictFind mm.modules_by_name (lower name)

/-- The inner search of `ModuleManager.address_to_module` for a module
without size information: the smallest other base address in
`(base, address]`. -/
def higherBaseScan (mm : MMState) (base address : Nat) : Option Nat :=
  mm.modules.foldl (fun acc e =>
    if base < e.1 ∧ e.1 ≤ address then
      match acc with
      | none => some e.1
      | some hb => if e.1 < hb then some e.1 else some hb
    else acc) none

/-- `ModuleManager.address_to_module`: first module whose
`[base, base+size)` contains the address; modules without size match when
no other module base lies in `(base, address]`. -/
def address_to_module (mm : MMState) (address : Nat) : Option Module :=
  mm.modules.findSome? (fun e =>
    if e.2.size > 0 then
      if e.1 ≤ address ∧ address < e.1 + e.2.size then some e.2 else none
    else
      if address ≥ e.1 then
        if higherBaseScan mm e.1 address = none then some e.2 else none
      else none)

/-- `ModuleManager.resolve_address_to_line`: subtract base and code-section
offset (a Python int, so possibly negative) and query the line cache. -/
def resolve_address_to_line (mm : MMState) (absolute_address : Nat) :
    Option (List Nat × SourceLocation × Module) :=
  match address_to_module mm absolute_address with
  | none => none
  | some module =>
    match module.line_info with
    | none => none
    | some caches =>
      let relative_addr : Int :=
        (absolute_address : Int) - module.base_address - module.code_section_offset
      match address_to_line caches.addr relative_addr with
      | some loc => some (module.name, loc, module)
      | none => none

/-- `ModuleManager.resolve_line_to_address`: first module with debug info
that resolves `(filename, line)`; the absolute address adds the base AND
the code-section offset to the DWARF-relative address. -/
def resolve_line_to_address (mm : MMState) (filename : List Nat) (line : Nat) :
    Option (Nat × Module) :=
  mm.modules.findSome? (fun e =>
    match e.2.line_info with
    | none => none
    | some caches =>
      match line_to_address caches.line filename line with
      | none => none
      | some dwarf_relative_addr =>
        some (e.2.base_address + e.2.code_section_offset + dwarf_relative_addr, e.2))

/-! ## Breakpoint manager (src/dgb/debugger/breakpoint_manager.py) -/

/-- `Breakpoint` dataclass. `original_byte` is a byte string (length 1 when
installed, empty when pending). -/
structure Breakpoint where
  id : Nat
  address : Nat
  original_byte : List Nat
  enabled : Bool
  hit_count : Nat
  file : Option (List Nat)
  line : Option Nat
  module_name : Option (List Nat)
  temporary : Bool
  status : List Nat
  pending_location : Option (List Nat)
  offset : Option Nat
deriving DecidableEq, Repr

/-- Combined state the breakpoint manager operates on: the process
controller's memory and thread registers, the module manager, and the
manager's own dictionaries. -/
structure World where
  memory : Nat → Nat
  eip : Nat → Nat
  eflags : Nat → Nat
  mm : MMState
  breakpoints : List (Nat × Breakpoint)
  pending_breakpoints : List Breakpoint
  next_id : Nat

/-- `ProcessController.write_memory`: store the byte string at the
address. -/
def writeMem (m : Nat → Nat) (addr : Nat) (bs : List Nat) : Nat → Nat :=
  fun a => if addr ≤ a ∧ a < addr + bs.length then bs.getD (a - addr) 0 else m a

/-- `ProcessController.read_memory(addr, n)`. -/
def readMem (m : Nat → Nat) (addr n : Nat) : List Nat :=
  (List.range n).map (fun i => m (addr + i))

/-- `BreakpointManager.set_breakpoint_at_address`. Returns the existing
breakpoint on a duplicate; otherwise saves the original byte, writes `0xCC`,
verifies it (raising on mismatch, the `Except.error` case), resolves the
source location for display, and records the new breakpoint. -/
def set_breakpoint_at_address (w : World) (address : Nat) :
    Except (List Nat) (Breakpoint × World) :=
  match dictFind w.breakpoints address with
  | some bp => .ok (bp, w)
  | none =>
    let original_byte := readMem w.memory address 1
    let mem1 := writeMem w.memory address [0xCC]
    let verify_byte := readMem mem1 address 1
    if verify_byte ≠ [0xCC] then
      .error (strBytes "Breakpoint verification failed")
    else
      let resolved := resolve_address_to_line w.mm address
      let bp : Breakpoint :=
        { id := w.next_id
          address := address
          original_byte := original_byte
          enabled := true
          hit_count := 0
          file := resolved.map (fun r => r.2.1.file)
          line := resolved.map (fun r => r.2.1.line)
          module_name := resolved.map (fun r => r.1)
          temporary := false
          status := strBytes "active"
          pending_location := none
          offset := none }
      .ok (bp, { w with
        memory := mem1
        breakpoints := dictSet w.breakpoints address bp
        next_id := w.next_id + 1 })

/-- `BreakpointManager.on_breakpoint_hit`. The 32-bit register path is
taken (`Eip` exists on the thread context). Mutations of the shared
`Breakpoint` object are modelled by rebuilding the record. -/
def on_breakpoint_hit (w : World) (address : Nat) (thread_id : Nat) :
    Option Breakpoint × World :=
  match dictFind w.breakpoints address with
  | none => (none, w)
  | some bp0 =>
    let bp1 := { bp0 with hit_count := bp0.hit_count + 1 }
    let mem1 := writeMem w.memory address bp1.original_byte
    let eip1 := fun t => if t = thread_id then address else w.eip t
    if bp1.temporary then
      (some bp1, { w with
        memory := mem1
        eip := eip1
        breakpoints := dictRemove w.breakpoints address })
    else
      let bp2 := { bp1 with enabled := false }
      (some bp2, { w with
        memory := mem1
        eip := eip1
        breakpoints := dictSet w.breakpoints address bp2 })

/-- `BreakpointManager.re_enable_breakpoint`. -/
def re_enable_breakpoint (w : World) (address : Nat) : Bool × World :=
  match dictFind w.breakpoints address with
  | none => (false, w)
  | some bp =>
    if bp.enabled then (true, w)
    else
      (true, { w with
        memory := writeMem w.memory address [0xCC]
        breakpoints := dictSet w.breakpoints address { bp with enabled := true } })

/-- The pending-duplicate scan of `set_breakpoint_deferred` for the
module+offset form (`module_name` truthy, same lowercased name, same
offset). -/
def findPendingDupModule (pending : List Breakpoint) (filename : List Nat)
    (offset : Nat) : Option Breakpoint :=
  pending.find? (fun bp =>
    match bp.module_name with
    | some mn => mn ≠ [] ∧ lower mn = lower filename ∧ bp.offset = some offset
    | none => False)

/-- The pending-duplicate scan of `set_breakpoint_deferred` for the
file+line form. -/
def findPendingDupFile (pending : List Breakpoint) (filename : List Nat)
    (line : Nat) : Option Breakpoint :=
  pending.find? (fun bp => bp.file = some filename ∧ bp.line = some line)

/-- `BreakpointManager._extract_module_name`. -/
def extract_module_name (filename : List Nat) : Option (List Nat) :=
  let bn := lower (basename filename)
  if (strBytes ".dll").isSuffixOf bn ∨ (strBytes ".exe").isSuffixOf bn then
    some (basename filename)
  else none

/-- `BreakpointManager.set_breakpoint_deferred`. Parse failures print and
return `None` (`.ok (none, w)`); only the install sequence can raise. The
post-install mutation of the (possibly shared) returned breakpoint is
mirrored into the active dictionary. -/
def set_breakpoint_deferred (w : World) (location : List Nat) :
    Except (List Nat) (Option Breakpoint × World) :=
  if (strBytes "0x").isPrefixOf location then
    match pyIntHex location with
    | some address =>
      match set_breakpoint_at_address w address with
      | .ok (bp, w1) => .ok (some bp, w1)
      | .error e => .error e
    | none => .ok (none, w)
  else if ¬ 58 ∈ location then .ok (none, w)
  else
    let parts := splitFirstAt 58 location
    let filename := strip parts.1
    let value_str := strip parts.2
    let is_module :=
      (strBytes ".dll").isSuffixOf (lower filename)
        ∨ (strBytes ".exe").isSuffixOf (lower filename)
    if is_module then
      match pyIntHex value_str with
      | none => .ok (none, w)
      | some offset =>
        match findPendingDupModule w.pending_breakpoints filename offset with
        | some existing_bp => .ok (some existing_bp, w)
        | none =>
          match get_module_by_name w.mm filename with
          | some module =>
            match set_breakpoint_at_address w (module.base_address + offset) with
            | .error e => .error e
            | .ok (bp, w1) =>
              let bp1 := { bp with module_name := some module.name, offset := some offset }
              .ok (some bp1,
                { w1 with breakpoints := dictSet w1.breakpoints bp.address bp1 })
          | none =>
            let bp : Breakpoint :=
              { id := w.next_id
                address := 0
                original_byte := []
                enabled := false
                hit_count := 0
                file := none
                line := none
                module_name := extract_module_name filename
                temporary := false
                status := strBytes "pending"
                pending_location := some location
                offset := some offset }
            .ok (some bp, { w with
              pending_breakpoints := w.pending_breakpoints ++ [bp]
              next_id := w.next_id + 1 })
    else
      match pyIntDec value_str with
      | none => .ok (none, w)
      | some line =>
        match findPendingDupFile w.pending_breakpoints filename line with
        | some existing_bp => .ok (some existing_bp, w)
        | none =>
          match resolve_line_to_address w.mm filename line with
          | some (address, module) =>
            match set_breakpoint_at_address w address with
            | .error e => .error e
            | .ok (bp, w1) =>
              let bp1 := { bp with
                file := some filename
                line := some line
                module_name := some module.name }
              .ok (some bp1,
                { w1 with breakpoints := dictSet w1.breakpoints bp.address bp1 })
          | none =>
            let bp : Breakpoint :=
              { id := w.next_id
                address := 0
                original_byte := []
                enabled := false
                hit_count := 0
                file := some filename
                line := some line
                module_name := none
                temporary := false
                status := strBytes "pending"
                pending_location := some location
                offset := none }
            .ok (some bp, { w with
              pending_breakpoints := w.pending_breakpoints ++ [bp]
              next_id := w.next_id + 1 })

/-! ## Debugger core dispatch (src/dgb/debugger/core.py, state.py) -/

/-- `DebuggerState` enum. -/
inductive Lifecycle where
  | not_started
  | running
  | stopped
  | step
  | exited
deriving DecidableEq, Repr

/-- `StopInfo` dataclass (the fields the single-step handler touches). -/
structure StopInfo where
  reason : List Nat
  address : Option Nat
  thread_id : Option Nat
deriving DecidableEq, Repr

/-- The debugger fields `_handle_single_step` reads and writes. -/
structure CoreState where
  world : World
  last_breakpoint_address : Option Nat
  has_breakpoint_manager : Bool
  state : Lifecycle
  stop_info : Option StopInfo
  step_mode : Bool
  current_thread_id : Option Nat
  current_address : Option Nat

/-- Python `flags &= ~mask` on a non-negative int: clear the bits of the
mask (two's-complement AND with the complement, `Nat.ldiff`). -/
def clearBits (flags mask : Nat) : Nat :=
  Nat.ldiff flags mask

/-- `DebuggerContext.set_stopped` (truthiness of the optional fields
mirrors the Python `if stop_info.address:` guards). -/
def set_stopped (s : CoreState) (si : StopInfo) : CoreState :=
  let s1 := { s with state := Lifecycle.stopped, stop_info := some si }
  let s2 :=
    match si.address with
    | some a => if a ≠ 0 then { s1 with current_address := some a } else s1
    | none => s1
  match si.thread_id with
  | some t => if t ≠ 0 then { s2 with current_thread_id := some t } else s2
  | none => s2

/-- `DebuggerContext.set_step_mode`. -/
def set_step_mode (s : CoreState) (enabled : Bool) : CoreState :=
  let s1 := { s with step_mode := enabled }
  if enabled then { s1 with state := Lifecycle.step } else s1

/-- `Debugger._handle_single_step`: re-arm a just-stepped breakpoint and
continue; stop on a user-requested step; otherwise absorb the spurious
single-step, clearing the trap flag (EFLAGS bit 8) when it is set, and do
not stop. -/
def handle_single_step (s : CoreState) (address thread_id : Nat) : CoreState :=
  let lba_truthy : Bool :=
    match s.last_breakpoint_address with
    | some a => a != 0
    | none => false
  if lba_truthy && s.has_breakpoint_manager then
    let lba := s.last_breakpoint_address.getD 0
    let w1 := (re_enable_breakpoint s.world lba).2
    let flags := w1.eflags thread_id
    let w2 := { w1 with eflags := fun t => if t = thread_id then clearBits flags 0x100 else w1.eflags t }
    { s with
      world := w2
      last_breakpoint_address := none
      current_thread_id := some thread_id
      current_address := some address }
  else if s.step_mode then
    let flags := s.world.eflags thread_id
    let w1 := { s.world with eflags := fun t => if t = thread_id then clearBits flags 0x100 else s.world.eflags t }
    let s1 := set_step_mode { s with world := w1 } false
    let s2 := { s1 with current_thread_id := some thread_id, current_address := some address }
    set_stopped s2
      { reason := strBytes "step", address := some address, thread_id := some thread_id }
  else
    let flags := s.world.eflags thread_id
    let s1 :=
      if flags &&& 0x100 ≠ 0 then
        { s with world := { s.world with
          eflags := fun t => if t = thread_id then clearBits flags 0x100 else s.world.eflags t } }
      else s
    { s1 with current_thread_id := some thread_id, current_address := some address }

/-! ## LEB128 decoding (src/dgb/dwarf/location_eval.py) -/

/-- The loop of `LocationEvaluator._decode_uleb128`, with the running
`result`, `shift` and `offset`. -/
def decodeUlebAux : List Nat → Nat → Nat → Nat → Nat × Nat
  | [], result, _, offset => (result, offset)
  | b :: rest, result, shift, offset =>
    let result1 := result ||| ((b &&& 0x7f) <<< shift)
    let offset1 := offset + 1
    if b &&& 0x80 = 0 then (result1, offset1)
    else decodeUlebAux rest result1 (shift + 7) offset1

/-- `LocationEvaluator._decode_uleb128`: returns the decoded value and the
number of bytes consumed. -/
def decode_uleb128 (data : List Nat) : Nat × Nat :=
  decodeUlebAux data 0 0 0

/-- The sign-extension step of `_decode_sleb128`:
`result |= -(1 << shift)` when `shift < 64` and bit 6 of the last byte is
set (Python bitwise OR on arbitrary-precision ints, `Int.lor`). -/
def slebFinalize (result shift lastByte : Nat) : Int :=
  if shift < 64 ∧ lastByte &&& 0x40 ≠ 0 then
    Int.lor (result : Int) (-((1 <<< shift : Nat) : Int))
  else (result : Int)

/-- The loop of `LocationEvaluator._decode_sleb128`; the `byte` variable
survives the loop for the sign-extension test (initially 0). -/
def decodeSlebAux : List Nat → Nat → Nat → Nat → Nat → Int × Nat
  | [], result, shift, offset, lastByte => (slebFinalize result shift lastByte, offset)
  | b :: rest, result, shift, offset, _ =>
    let result1 := result ||| ((b &&& 0x7f) <<< shift)
    let shift1 := shift + 7
    let offset1 := offset + 1
    if b &&& 0x80 = 0 then (slebFinalize result1 shift1 b, offset1)
    else decodeSlebAux rest result1 shift1 offset1 b

/-- `LocationEvaluator._decode_sleb128`. -/
def decode_sleb128 (data : List Nat) : Int × Nat :=
  decodeSlebAux data 0 0 0 0

/-- Canonical unsigned LEB128 encoding: low 7 bits per byte, continuation
bit on every byte but the last. -/
def ulebEncode (n : Nat) : List Nat :=
  if h : n < 0x80 then [n]
  else (n % 0x80 + 0x80) :: ulebEncode (n / 0x80)
decreasing_by exact Nat.div_lt_self (by omega) (by omega)

/-- Canonical signed LEB128 encoding of a non-negative value `n`: emit
7-bit groups until the remainder is zero and the sign bit of the last
group is clear. -/
def slebEncodePos (n : Nat) : List Nat :=
  if h : n / 128 = 0 ∧ (n % 128) &&& 0x40 = 0 then [n % 128]
  else (n % 128 ||| 0x80) :: slebEncodePos (n / 128)
decreasing_by
  refine Nat.div_lt_self ?_ (by omega)
  rcases Nat.eq_zero_or_pos n with h0 | h0
  · subst h0; simp at h
  · exact h0

/-- Canonical signed LEB128 encoding of the negative value `-1 - m`: the
7-bit groups are the complements of the base-128 digits of `m`, until the
remainder is exhausted with the sign bit of the last group set. -/
def slebEncodeNeg (m : Nat) : List Nat :=
  if h : m / 128 = 0 ∧ (127 - m % 128) &&& 0x40 ≠ 0 then [127 - m % 128]
  else ((127 - m % 128) ||| 0x80) :: slebEncodeNeg (m / 128)
decreasing_by
  refine Nat.div_lt_self ?_ (by omega)
  rcases Nat.eq_zero_or_pos m with h0 | h0
  · subst h0; simp at h
  · exact h0

/-- Canonical signed LEB128 encoding. -/
def slebEncode (i : Int) : List Nat :=
  if 0 ≤ i then slebEncodePos i.toNat else slebEncodeNeg (-1 - i).toNat

/-! ## DWARF discovery (src/dgb/dwarf/parser.py) -/

/-- A PE section as the parser sees it: decoded, null-stripped name and raw
data. -/
structure PESection where
  name : List Nat
  data : List Nat
deriving DecidableEq, Repr

/-- Stand-in for the pyelftools `DWARFInfo` handle. -/
structure DwarfInfo where
  handle : Nat
deriving DecidableEq, Repr

/-- `WatcomDwarfParser._try_pe_sections`: collect `.debug_`-prefixed
sections, require `.debug_info` among them, then return `None` anyway —
the PE-section-to-DWARFInfo conversion is an unimplemented TODO in the
source. -/
def try_pe_sections (sections : List PESection) : Option DwarfInfo :=
  let debug_sections := sections.filter (fun s => (strBytes ".debug_").isPrefixOf s.name)
  if debug_sections = [] then none
  else if ¬ debug_sections.any (fun s => s.name = strBytes ".debug_info") then none
  else none

def elfMagic : List Nat := [0x7f, 69, 76, 70]

/-- Python `bytes.find(sub)`: index of the leftmost occurrence, if any. -/
def findSubIndex (pat : List Nat) : List Nat → Option Nat
  | [] => if pat = [] then some 0 else none
  | d :: rest =>
    if pat.isPrefixOf (d :: rest) then some 0
    else (findSubIndex pat rest).map (· + 1)

/-- `WatcomDwarfParser._try_watcom_elf`: scan for the ELF magic, reject a
tail shorter than an ELF header (52 bytes), then hand the tail to
pyelftools (`elfParse` models `ELFFile`/`has_dwarf_info`/`get_dwarf_info`
with their failure modes). -/
def try_watcom_elf (elfParse : List Nat → Option DwarfInfo) (data : List Nat) :
    Option DwarfInfo :=
  match findSubIndex elfMagic data with
  | none => none
  | some elf_offset =>
    let elf_data := data.drop elf_offset
    if elf_data.length < 52 then none
    else elfParse elf_data

/-- `WatcomDwarfParser.extract_dwarf_info`: PE sections first, then the
appended Watcom ELF container. -/
def extract_dwarf_info (elfParse : List Nat → Option DwarfInfo)
    (sections : List PESection) (data : List Nat) : Option DwarfInfo :=
  match try_pe_sections sections with
  | some d => some d
  | none => try_watcom_elf elfParse data

/-! ## Dictionary lemmas -/

theorem dictFind_dictSet_self {α β : Type} [DecidableEq α] (l : List (α × β)) (k : α)
    (v : β) : dictFind (dictSet l k v) k = some v := by
  induction l with
  | nil => simp [dictSet, dictFind]
  | cons e rest ih =>
    by_cases he : e.1 = k
    · simp [dictSet, dictFind, he]
    · simp [dictSet, dictFind, he, ih]

theorem dictFind_none_of_not_mem {α β : Type} [DecidableEq α] (l : List (α × β)) (k : α)
    (h : k ∉ l.map Prod.fst) : dictFind l k = none := by
  induction l with
  | nil => rfl
  | cons e rest ih =>
    simp only [List.map_cons, List.mem_cons] at h
    push_neg at h
    have hne : ¬ e.1 = k := fun hh => h.1 hh.symm
    simp only [dictFind, if_neg hne]
    exact ih h.2

theorem dictFind_dictRemove_self {α β : Type} [DecidableEq α] (l : List (α × β)) (k : α)
    (hnd : (l.map Prod.fst).Nodup) : dictFind (dictRemove l k) k = none := by
  induction l with
  | nil => rfl
  | cons e rest ih =>
    simp only [List.map_cons, List.nodup_cons] at hnd
    by_cases he : e.1 = k
    · subst he
      simp only [dictRemove, if_pos rfl]
      exact dictFind_none_of_not_mem rest e.1 hnd.1
    · simp [dictRemove, he, dictFind, ih hnd.2]

theorem dictSet_map_fst_of_find {α β : Type} [DecidableEq α] (l : List (α × β)) (k : α)
    (v v0 : β) (h : dictFind l k = some v0) :
    (dictSet l k v).map Prod.fst = l.map Prod.fst := by
  induction l with
  | nil => simp [dictFind] at h
  | cons e rest ih =>
    by_cases he : e.1 = k
    · simp [dictSet, he]
    · simp only [dictFind, if_neg he] at h
      simp [dictSet, he, ih h]

theorem writeMem_same (m : Nat → Nat) (addr b : Nat) :
    writeMem m addr [b] addr = b := by
  simp [writeMem]

/-! ## Claim C1 -/

/-- Claim C1: on a hit of a known active breakpoint, `on_breakpoint_hit`
increments its hit counter by exactly one, writes the saved original byte
back at the address, rewinds the thread's instruction pointer to the
breakpoint address, and deletes the entry when temporary, or otherwise
marks it disabled pending re-arm. -/
theorem c1_on_breakpoint_hit (w : World) (address thread_id : Nat) (bp0 : Breakpoint)
    (b : Nat) (h : dictFind w.breakpoints address = some bp0)
    (hb : bp0.original_byte = [b])
    (hnd : (w.breakpoints.map Prod.fst).Nodup) :
    ∃ bp1, (on_breakpoint_hit w address thread_id).1 = some bp1 ∧
      bp1.hit_count = bp0.hit_count + 1 ∧
      (on_breakpoint_hit w address thread_id).2.memory address = b ∧
      (on_breakpoint_hit w address thread_id).2.eip thread_id = address ∧
      (bp0.temporary = true →
        dictFind (on_breakpoint_hit w address thread_id).2.breakpoints address = none) ∧
      (bp0.temporary = false →
        dictFind (on_breakpoint_hit w address thread_id).2.breakpoints address =
          some { bp0 with hit_count := bp0.hit_count + 1, enabled := false }) := by
  cases htmp : bp0.temporary
  · refine ⟨{ bp0 with hit_count := bp0.hit_count + 1, enabled := false },
      ?_, rfl, ?_, ?_, ?_, ?_⟩
    · simp [on_breakpoint_hit, h, htmp]
    · simp [on_breakpoint_hit, h, htmp, hb, writeMem]
    · simp [on_breakpoint_hit, h, htmp]
    · intro hc; simp [htmp] at hc
    · intro _
      simp only [on_breakpoint_hit, h, htmp]
      exact dictFind_dictSet_self w.breakpoints address _
  · refine ⟨{ bp0 with hit_count := bp0.hit_count + 1 }, ?_, rfl, ?_, ?_, ?_, ?_⟩
    · simp [on_breakpoint_hit, h, htmp]
    · simp [on_breakpoint_hit, h, htmp, hb, writeMem]
    · simp [on_breakpoint_hit, h, htmp]
    · intro _
      simp only [on_breakpoint_hit, h, htmp]
      exact dictFind_dictRemove_self w.breakpoints address hnd
    · intro hc; simp [htmp] at hc

/-- Concrete breakpoint used by several witnesses. -/
def bpSample : Breakpoint :=
  { id := 1
    address := 100
    original_byte := [0x90]
    enabled := true
    hit_count := 0
    file := none
    line := none
    module_name := none
    temporary := false
    status := strBytes "active"
    pending_location := none
    offset := none }

/-- Concrete world used by several witnesses. -/
def worldSample : World :=
  { memory := fun _ => 0x90
    eip := fun _ => 0
    eflags := fun _ => 0
    mm := { modules := [], modules_by_name := [] }
    breakpoints := [(100, bpSample)]
    pending_breakpoints := []
    next_id := 2 }

theorem c1_on_breakpoint_hit_witness :
    ∃ bp1, (on_breakpoint_hit worldSample 100 7).1 = some bp1 ∧
      bp1.hit_count = bpSample.hit_count + 1 ∧
      (on_breakpoint_hit worldSample 100 7).2.memory 100 = 0x90 ∧
      (on_breakpoint_hit worldSample 100 7).2.eip 7 = 100 ∧
      (bpSample.temporary = true →
        dictFind (on_breakpoint_hit worldSample 100 7).2.breakpoints 100 = none) ∧
      (bpSample.temporary = false →
        dictFind (on_breakpoint_hit worldSample 100 7).2.breakpoints 100 =
          some { bpSample with hit_count := bpSample.hit_count + 1, enabled := false }) :=
  c1_on_breakpoint_hit worldSample 100 7 bpSample 0x90 rfl rfl (by decide)

/-! ## Claim C6 -/

/-- Claim C6: a single-step exception with no pending breakpoint re-arm and
step mode off never transitions the session to stopped, and leaves the
thread's trap flag (EFLAGS bit 8) clear. -/
theorem c6_spurious_single_step (s : CoreState) (address thread_id : Nat)
    (h1 : s.last_breakpoint_address = none) (h2 : s.step_mode = false) :
    (handle_single_step s address thread_id).state = s.state ∧
    (handle_single_step s address thread_id).stop_info = s.stop_info ∧
    Nat.testBit ((handle_single_step s address thread_id).world.eflags thread_id) 8
      = false := by
  by_cases hf : s.world.eflags thread_id &&& 0x100 ≠ 0
  · have hs : handle_single_step s address thread_id =
        { s with
          world := { s.world with eflags :=
            (fun t => if t = thread_id then clearBits (s.world.eflags thread_id) 0x100
              else s.world.eflags t) }
          current_thread_id := some thread_id
          current_address := some address } := by
      simp [handle_single_step, h1, h2, hf]
    rw [hs]
    refine ⟨rfl, rfl, ?_⟩
    have ht : Nat.testBit 0x100 8 = true := by decide
    simp [clearBits, Nat.testBit_ldiff, ht]
  · push_neg at hf
    have hbit : Nat.testBit (s.world.eflags thread_id) 8 = false := by
      have h256 : Nat.testBit (s.world.eflags thread_id &&& 0x100) 8 = false := by
        rw [hf]; exact Nat.zero_testBit 8
      rw [Nat.testBit_and] at h256
      have ht : Nat.testBit 0x100 8 = true := by decide
      rw [ht, Bool.and_true] at h256
      exact h256
    have hs : handle_single_step s address thread_id =
        { s with current_thread_id := some thread_id, current_address := some address } := by
      simp [handle_single_step, h1, h2, hf]
    rw [hs]
    exact ⟨rfl, rfl, hbit⟩

/-- Concrete core state used by the C6 witness; the trap flag starts set. -/
def coreSample : CoreState :=
  { world := { worldSample with eflags := fun _ => 0x346 }
    last_breakpoint_address := none
    has_breakpoint_manager := true
    state := Lifecycle.running
    stop_info := none
    step_mode := false
    current_thread_id := none
    current_address := none }

theorem c6_spurious_single_step_witness :
    (handle_single_step coreSample 4096 7).state = coreSample.state ∧
    (handle_single_step coreSample 4096 7).stop_info = coreSample.stop_info ∧
    Nat.testBit ((handle_single_step coreSample 4096 7).world.eflags 7) 8 = false :=
  c6_spurious_single_step coreSample 4096 7 rfl rfl

/-! ## Claim C3 -/

/-- Claim C3: a request for an address that already carries an active
breakpoint is rejected as a duplicate — the existing record is returned,
no record is created and no byte is written; and for deferred locations
the duplicate scan covers the pending set (module+offset and file+line
forms) as well as the active set (reached through the shared install
path), where again no record is added and memory is untouched. -/
theorem c3_duplicate_detection :
    (∀ (w : World) (address : Nat) (bp0 : Breakpoint),
      dictFind w.breakpoints address = some bp0 →
      set_breakpoint_at_address w address = .ok (bp0, w))
    ∧ (∀ (w : World) (location : List Nat) (offset : Nat) (existing_bp : Breakpoint),
      (strBytes "0x").isPrefixOf location = false →
      58 ∈ location →
      ((strBytes ".dll").isSuffixOf (lower (strip (splitFirstAt 58 location).1))
        ∨ (strBytes ".exe").isSuffixOf (lower (strip (splitFirstAt 58 location).1))) →
      pyIntHex (strip (splitFirstAt 58 location).2) = some offset →
      findPendingDupModule w.pending_breakpoints (strip (splitFirstAt 58 location).1)
        offset = some existing_bp →
      set_breakpoint_deferred w location = .ok (some existing_bp, w))
    ∧ (∀ (w : World) (location : List Nat) (line : Nat) (existing_bp : Breakpoint),
      (strBytes "0x").isPrefixOf location = false →
      58 ∈ location →
      ¬ ((strBytes ".dll").isSuffixOf (lower (strip (splitFirstAt 58 location).1))
        ∨ (strBytes ".exe").isSuffixOf (lower (strip (splitFirstAt 58 location).1))) →
      pyIntDec (strip (splitFirstAt 58 location).2) = some line →
      findPendingDupFile w.pending_breakpoints (strip (splitFirstAt 58 location).1)
        line = some existing_bp →
      set_breakpoint_deferred w location = .ok (some existing_bp, w))
    ∧ (∀ (w : World) (location : List Nat) (offset : Nat) (module : Module)
        (bp0 : Breakpoint),
      (strBytes "0x").isPrefixOf location = false →
      58 ∈ location →
      ((strBytes ".dll").isSuffixOf (lower (strip (splitFirstAt 58 location).1))
        ∨ (strBytes ".exe").isSuffixOf (lower (strip (splitFirstAt 58 location).1))) →
      pyIntHex (strip (splitFirstAt 58 location).2) = some offset →
      findPendingDupModule w.pending_breakpoints (strip (splitFirstAt 58 location).1)
        offset = none →
      get_module_by_name w.mm (strip (splitFirstAt 58 location).1) = some module →
      dictFind w.breakpoints (module.base_address + offset) = some bp0 →
      bp0.address = module.base_address + offset →
      ∃ bp1 w1, set_breakpoint_deferred w location = .ok (some bp1, w1) ∧
        bp1.id = bp0.id ∧ w1.memory = w.memory ∧ w1.next_id = w.next_id ∧
        w1.breakpoints.map Prod.fst = w.breakpoints.map Prod.fst ∧
        w1.pending_breakpoints = w.pending_breakpoints) := by
  refine ⟨?_, ?_, ?_, ?_⟩
  · intro w address bp0 h
    simp [set_breakpoint_at_address, h]
  · intro w location offset existing_bp h0x hcolon hmod hhex hdup
    unfold set_breakpoint_deferred
    rw [if_neg (by simp [h0x]), if_neg (not_not_intro hcolon)]
    simp only [hhex, hdup, if_pos hmod]
  · intro w location line existing_bp h0x hcolon hnmod hdec hdup
    unfold set_breakpoint_deferred
    rw [if_neg (by simp [h0x]), if_neg (not_not_intro hcolon)]
    simp only [hdec, hdup, if_neg hnmod]
  · intro w location offset module bp0 h0x hcolon hmod hhex hdupnone hname hfind hkey
    have hset : set_breakpoint_at_address w (module.base_address + offset) =
        .ok (bp0, w) := by
      simp [set_breakpoint_at_address, hfind]
    set bp1 : Breakpoint :=
      { bp0 with module_name := some module.name, offset := some offset } with hbp1def
    refine ⟨bp1, { w with breakpoints := dictSet w.breakpoints bp0.address bp1 },
      ?_, rfl, rfl, rfl, ?_, rfl⟩
    · unfold set_breakpoint_deferred
      rw [if_neg (by simp [h0x]), if_neg (not_not_intro hcolon)]
      simp only [hhex, hdupnone, hname, hset, if_pos hmod]
    · rw [hkey]
      exact dictSet_map_fst_of_find w.breakpoints (module.base_address + offset) _ bp0 hfind

/-- Pending module+offset breakpoint for the C3 witness. -/
def pendModBp : Breakpoint :=
  { id := 3
    address := 0
    original_byte := []
    enabled := false
    hit_count := 0
    file := none
    line := none
    module_name := some (strBytes "smackw32.dll")
    temporary := false
    status := strBytes "pending"
    pending_location := some (strBytes "smackw32.dll:0x100")
    offset := some 256 }

/-- Pending file+line breakpoint for the C3 witness. -/
def pendFileBp : Breakpoint :=
  { id := 4
    address := 0
    original_byte := []
    enabled := false
    hit_count := 0
    file := some (strBytes "smack.c")
    line := some 45
    module_name := none
    temporary := false
    status := strBytes "pending"
    pending_location := some (strBytes "smack.c:45")
    offset := none }

def worldPend : World :=
  { worldSample with pending_breakpoints := [pendModBp, pendFileBp] }

def modTest : Module :=
  { name := strBytes "testdll.dll"
    base_address := 4194304
    path := strBytes "C:\\testdll.dll"
    size := 0
    has_debug_info := false
    line_info := none
    code_section_offset := 4096 }

def bpInTest : Breakpoint :=
  { bpSample with id := 9, address := 4194336, original_byte := [0x55] }

def worldMod : World :=
  { memory := fun _ => 0x55
    eip := fun _ => 0
    eflags := fun _ => 0
    mm := { modules := [(4194304, modTest)]
            modules_by_name := [(strBytes "testdll.dll", modTest)] }
    breakpoints := [(4194336, bpInTest)]
    pending_breakpoints := []
    next_id := 10 }

theorem c3_duplicate_detection_witness :
    set_breakpoint_at_address worldSample 100 = .ok (bpSample, worldSample) ∧
    set_breakpoint_deferred worldPend (strBytes "smackw32.dll:0x100")
      = .ok (some pendModBp, worldPend) ∧
    set_breakpoint_deferred worldPend (strBytes "smack.c:45")
      = .ok (some pendFileBp, worldPend) ∧
    (∃ bp1 w1, set_breakpoint_deferred worldMod (strBytes "testdll.dll:0x20")
        = .ok (some bp1, w1) ∧
      bp1.id = bpInTest.id ∧ w1.memory = worldMod.memory ∧
      w1.next_id = worldMod.next_id ∧
      w1.breakpoints.map Prod.fst = worldMod.breakpoints.map Prod.fst ∧
      w1.pending_breakpoints = worldMod.pending_breakpoints) :=
  ⟨c3_duplicate_detection.1 worldSample 100 bpSample rfl,
   c3_duplicate_detection.2.1 worldPend (strBytes "smackw32.dll:0x100") 256 pendModBp
     (by decide) (by decide) (by decide) (by decide) (by decide),
   c3_duplicate_detection.2.2.1 worldPend (strBytes "smack.c:45") 45 pendFileBp
     (by decide) (by decide) (by decide) (by decide) (by decide),
   c3_duplicate_detection.2.2.2 worldMod (strBytes "testdll.dll:0x20") 32 modTest
     bpInTest (by decide) (by decide) (by decide) (by decide) (by decide) (by decide)
     rfl (by decide)⟩

/-! ## Claim C2 -/

theorem set_breakpoint_fresh (w : World) (address : Nat)
    (hfree : dictFind w.breakpoints address = none) :
    ∃ bp, set_breakpoint_at_address w address = .ok (bp,
      { w with memory := writeMem w.memory address [0xCC]
               breakpoints := dictSet w.breakpoints address bp
               next_id := w.next_id + 1 }) ∧
      bp.address = address ∧ bp.id = w.next_id ∧
      bp.original_byte = readMem w.memory address 1 := by
  unfold set_breakpoint_at_address
  rw [hfree]
  have hv : readMem (writeMem w.memory address [0xCC]) address 1 = [0xCC] := by
    have hr : List.range 1 = [0] := rfl
    simp [readMem, writeMem, hr]
  simp only [hv]
  rw [if_neg (by simp)]
  exact ⟨_, rfl, rfl, rfl, rfl⟩

/-- Claim C2: deliberately asymmetric address formulas. A `module:offset`
location whose module is loaded installs at `module.base_address + offset`
— the code-section offset is NOT added, whatever its value — while
`resolve_line_to_address` returns
`module.base_address + module.code_section_offset + dwarf_relative_addr`. -/
theorem c2_address_formulas :
    (∀ (w : World) (location : List Nat) (offset : Nat) (module : Module),
      (strBytes "0x").isPrefixOf location = false →
      58 ∈ location →
      ((strBytes ".dll").isSuffixOf (lower (strip (splitFirstAt 58 location).1))
        ∨ (strBytes ".exe").isSuffixOf (lower (strip (splitFirstAt 58 location).1))) →
      pyIntHex (strip (splitFirstAt 58 location).2) = some offset →
      findPendingDupModule w.pending_breakpoints (strip (splitFirstAt 58 location).1)
        offset = none →
      get_module_by_name w.mm (strip (splitFirstAt 58 location).1) = some module →
      dictFind w.breakpoints (module.base_address + offset) = none →
      ∃ bp w1, set_breakpoint_deferred w location = .ok (some bp, w1) ∧
        bp.address = module.base_address + offset ∧
        w1.memory (module.base_address + offset) = 0xCC)
    ∧ (∀ (mm : MMState) (filename : List Nat) (line a : Nat) (module : Module),
      resolve_line_to_address mm filename line = some (a, module) →
      ∃ caches rel, module.line_info = some caches ∧
        line_to_address caches.line filename line = some rel ∧
        a = module.base_address + module.code_section_offset + rel) := by
  constructor
  · intro w location offset module h0x hcolon hmod hhex hdupnone hname hfree
    obtain ⟨bp, hset, hbaddr, _, _⟩ :=
      set_breakpoint_fresh w (module.base_address + offset) hfree
    set addr := module.base_address + offset with haddr
    set bp1 : Breakpoint :=
      { bp with module_name := some module.name, offset := some offset } with hbp1
    set w2 : World := { w with memory := writeMem w.memory addr [0xCC], breakpoints := dictSet (dictSet w.breakpoints addr bp) bp.address bp1, next_id := w.next_id + 1 } with hw2
    refine ⟨bp1, w2, ?_, ?_, ?_⟩
    · unfold set_breakpoint_deferred
      rw [if_neg (by simp [h0x]), if_neg (not_not_intro hcolon)]
      simp only [hhex, hdupnone, hname, hset, if_pos hmod]
    · simp only [hbp1]
      simpa using hbaddr
    · simp [hw2, writeMem]
  · intro mm filename line a module h
    obtain ⟨e, _, he⟩ := List.exists_of_findSome?_eq_some h
    rcases hli : e.2.line_info with _ | caches
    · simp only [hli] at he
      exact Option.noConfusion he
    · simp only [hli] at he
      rcases hlta : line_to_address caches.line filename line with _ | rel
      · simp only [hlta] at he
        exact Option.noConfusion he
      · simp only [hlta, Option.some_inj] at he
        obtain ⟨ha, hm⟩ : e.2.base_address + e.2.code_section_offset + rel = a
            ∧ e.2 = module := by
          constructor
          · exact congrArg Prod.fst he
          · exact congrArg Prod.snd he
        refine ⟨caches, rel, ?_, hlta, ?_⟩
        · rw [← hm]; exact hli
        · rw [← ha, ← hm]

/-- A source row of `trampolines.cpp` at relative address `0x2966`. -/
def locTramp : SourceLocation :=
  { file := strBytes "trampolines.cpp", line := 10, column := 0, address := 10598 }

/-- A line-info cache pair for the C2 witness. -/
def cachesTramp : Caches :=
  { addr := [(10598, locTramp)]
    line := [((strBytes "trampolines.cpp", 10), 10598)] }

def modTramp : Module :=
  { name := strBytes "smackw32.dll"
    base_address := 1900544
    path := strBytes "C:\\smackw32.dll"
    size := 0
    has_debug_info := true
    line_info := some cachesTramp
    code_section_offset := 4096 }

def mmTramp : MMState :=
  { modules := [(1900544, modTramp)]
    modules_by_name := [(strBytes "smackw32.dll", modTramp)] }

theorem c2_address_formulas_witness :
    (∃ bp w1, set_breakpoint_deferred worldMod (strBytes "testdll.dll:0x30")
        = .ok (some bp, w1) ∧
      bp.address = modTest.base_address + 48 ∧
      w1.memory (modTest.base_address + 48) = 0xCC) ∧
    (∃ caches rel, modTramp.line_info = some caches ∧
      line_to_address caches.line (strBytes "trampolines.cpp") 10 = some rel ∧
      1915238 = modTramp.base_address + modTramp.code_section_offset + rel) :=
  ⟨c2_address_formulas.1 worldMod (strBytes "testdll.dll:0x30") 48 modTest
     (by decide) (by decide) (by decide) (by decide) (by decide) (by decide) (by decide),
   c2_address_formulas.2 mmTramp (strBytes "trampolines.cpp") 10 1915238 modTramp rfl⟩

/-! ## Claim C7 -/

theorem dictFind_eq_some_of_mem {α β : Type} [DecidableEq α] (l : List (α × β)) (k : α)
    (v : β) (hnd : (l.map Prod.fst).Nodup) (hm : (k, v) ∈ l) :
    dictFind l k = some v := by
  induction l with
  | nil => cases hm
  | cons e rest ih =>
    simp only [List.map_cons, List.nodup_cons] at hnd
    rcases List.mem_cons.mp hm with heq | hmr
    · rw [← heq]
      simp [dictFind]
    · have hne : ¬ e.1 = k := by
        intro hh
        apply hnd.1
        rw [hh]
        exact List.mem_map_of_mem Prod.fst hmr
      simp only [dictFind, if_neg hne]
      exact ih hnd.2 hmr

theorem closestScan_eq_acc (address : Int) (l : List Nat) (acc : Option Nat)
    (h : ∀ k ∈ l, ¬ (k : Int) ≤ address) : closestScan address l acc = acc := by
  induction l with
  | nil => rfl
  | cons x rest ih =>
    simp only [closestScan, if_neg (h x (List.mem_cons_self x rest))]

theorem closestScan_eq_max (address : Int) (l : List Nat) (hs : l.Sorted (· ≤ ·)) :
    ∀ (m : Nat) (acc : Option Nat), m ∈ l → (m : Int) ≤ address →
      (∀ k ∈ l, (k : Int) ≤ address → k ≤ m) →
      closestScan address l acc = some m := by
  induction l with
  | nil => intro m acc hm; cases hm
  | cons x rest ih =>
    intro m acc hm hle hmax
    obtain ⟨hxrest, hsrest⟩ := List.sorted_cons.mp hs
    have hx : (x : Int) ≤ address := by
      rcases List.mem_cons.mp hm with rfl | hmr
      · exact hle
      · exact le_trans (by exact_mod_cast hxrest m hmr) hle
    simp only [closestScan, if_pos hx]
    by_cases hrest : ∃ k ∈ rest, (k : Int) ≤ address
    · obtain ⟨k, hkmem, hkle⟩ := hrest
      have hm_rest : m ∈ rest := by
        rcases List.mem_cons.mp hm with rfl | hmr
        · have hkm : k ≤ m := hmax k (List.mem_cons_of_mem _ hkmem) hkle
          have hmk : m ≤ k := hxrest k hkmem
          have : k = m := le_antisymm hkm hmk
          rw [← this]
          exact hkmem
        · exact hmr
      exact ih hsrest m (some x) hm_rest hle
        (fun k2 hk2 hk2le => hmax k2 (List.mem_cons_of_mem _ hk2) hk2le)
    · push_neg at hrest
      rw [closestScan_eq_acc address rest (some x)
        (fun k hk => not_le_of_lt (hrest k hk))]
      rcases List.mem_cons.mp hm with rfl | hmr
      · rfl
      · exact absurd hle (not_le_of_lt (hrest m hmr))

/-- Claim C7: `address_to_line` returns the cached row for exactly the
queried address when present, otherwise the row with the largest cached
address at or below the query, and none when the query is below every
cached address. -/
theorem c7_address_to_line (cache : List (Nat × SourceLocation)) (a : Int)
    (hnd : (cache.map Prod.fst).Nodup) :
    (∀ a0 loc, (a0, loc) ∈ cache → (a0 : Int) = a →
      address_to_line cache a = some loc)
    ∧ (∀ m loc, (m, loc) ∈ cache → (m : Int) ≤ a →
      (∀ k ∈ cache.map Prod.fst, (k : Int) ≤ a → k ≤ m) →
      address_to_line cache a = some loc)
    ∧ ((∀ k ∈ cache.map Prod.fst, a < (k : Int)) →
      address_to_line cache a = none) := by
  have hvals : ∀ (k : Nat) (v v2 : SourceLocation), (k, v) ∈ cache → (k, v2) ∈ cache →
      v = v2 := by
    intro k v v2 h1 h2
    have e1 := dictFind_eq_some_of_mem cache k v hnd h1
    have e2 := dictFind_eq_some_of_mem cache k v2 hnd h2
    rw [e1] at e2
    exact Option.some_inj.mp e2
  have hsorted : (sortNat (cache.map Prod.fst)).Sorted (· ≤ ·) := by
    simpa [sortNat] using
      List.sorted_insertionSort (· ≤ ·) (cache.map Prod.fst)
  have hperm : ∀ k, k ∈ sortNat (cache.map Prod.fst) ↔ k ∈ cache.map Prod.fst := by
    intro k
    exact (List.perm_insertionSort (· ≤ ·) (cache.map Prod.fst)).mem_iff
  refine ⟨?_, ?_, ?_⟩
  · intro a0 loc hmem hcast
    have hfind : ∃ e, cache.find? (fun e => (e.1 : Int) = a) = some e := by
      have : (cache.find? (fun e => (e.1 : Int) = a)).isSome := by
        rw [List.find?_isSome]
        exact ⟨(a0, loc), hmem, by simp [hcast]⟩
      exact Option.isSome_iff_exists.mp this
    obtain ⟨e, he⟩ := hfind
    have hpe : (e.1 : Int) = a := by
      have := List.find?_some he
      simpa using this
    have hemem := List.mem_of_find?_eq_some he
    have hkey : e.1 = a0 := by
      have : (e.1 : Int) = (a0 : Int) := by rw [hpe, hcast]
      exact_mod_cast this
    have hloc : e.2 = loc := by
      apply hvals a0 e.2 loc
      · rw [← hkey]; exact hemem
      · exact hmem
    simp only [address_to_line, he, hloc]
  · intro m loc hmem hle hmax
    rcases hfind : cache.find? (fun e => (e.1 : Int) = a) with _ | e
    · have hscan : closestScan a (sortNat (cache.map Prod.fst)) none = some m := by
        apply closestScan_eq_max a _ hsorted m none
        · exact (hperm m).mpr (List.mem_map_of_mem Prod.fst hmem)
        · exact hle
        · intro k hk hkle
          exact hmax k ((hperm k).mp hk) hkle
      simp only [address_to_line, hfind, hscan]
      exact dictFind_eq_some_of_mem cache m loc hnd hmem
    · have hpe : (e.1 : Int) = a := by
        have := List.find?_some hfind
        simpa using this
      have hemem := List.mem_of_find?_eq_some hfind
      have he1m : e.1 = m := by
        have h1 : e.1 ≤ m := hmax e.1 (List.mem_map_of_mem Prod.fst hemem) (le_of_eq hpe)
        have h2 : m ≤ e.1 := by
          have : (m : Int) ≤ (e.1 : Int) := by rw [hpe]; exact hle
          exact_mod_cast this
        exact le_antisymm h1 h2
      have hloc : e.2 = loc := by
        apply hvals m e.2 loc
        · rw [← he1m]; exact hemem
        · exact hmem
      simp only [address_to_line, hfind, hloc]
  · intro hall
    rcases hfind : cache.find? (fun e => (e.1 : Int) = a) with _ | e
    · have hscan : closestScan a (sortNat (cache.map Prod.fst)) none = none := by
        apply closestScan_eq_acc
        intro k hk
        exact not_le_of_lt (hall k ((hperm k).mp hk))
      simp only [address_to_line, hfind, hscan]
    · exfalso
      have hpe : (e.1 : Int) = a := by
        have := List.find?_some hfind
        simpa using this
      have hemem := List.mem_of_find?_eq_some hfind
      have := hall e.1 (List.mem_map_of_mem Prod.fst hemem)
      omega

def locLow : SourceLocation :=
  { file := strBytes "a.c", line := 1, column := 0, address := 5 }

def locHigh : SourceLocation :=
  { file := strBytes "a.c", line := 2, column := 0, address := 10 }

def cacheC7 : List (Nat × SourceLocation) := [(5, locLow), (10, locHigh)]

theorem c7_address_to_line_witness :
    address_to_line cacheC7 (10 : Int) = some locHigh ∧
    address_to_line cacheC7 (7 : Int) = some locLow ∧
    address_to_line cacheC7 (3 : Int) = none :=
  ⟨(c7_address_to_line cacheC7 10 (by decide)).1 10 locHigh (by decide) (by decide),
   (c7_address_to_line cacheC7 7 (by decide)).2.1 5 locLow (by decide) (by decide)
     (by decide),
   (c7_address_to_line cacheC7 3 (by decide)).2.2 (by decide)⟩

/-! ## Claim C8 -/

/-- PE sections carrying `.debug_`-prefixed names including `.debug_info`. -/
def sectionsDbg : List PESection :=
  [{ name := strBytes ".debug_info", data := [1, 2, 3] },
   { name := strBytes ".debug_line", data := [4] }]

/-- Claim C8 counterexample: a PE file carrying `.debug_`-prefixed sections
including `.debug_info` does NOT yield DWARF info from them:
`_try_pe_sections` is an unimplemented stub that returns none, so even with
an always-succeeding ELF parser, extraction from a file with no appended
ELF container fails. -/
theorem c8_counterexample :
    try_pe_sections sectionsDbg = none ∧
    extract_dwarf_info (fun _ => some { handle := 1 }) sectionsDbg [] = none := by
  exact ⟨rfl, rfl⟩

/-- Claim C8 amended: discovery tries the PE-section strategy first, but
that strategy always yields nothing (the PE-section-to-DWARF conversion is
an unimplemented TODO, even when `.debug_info` is present), so the result
is always that of the appended-ELF strategy; there, a candidate container
smaller than an ELF header (52 bytes) is rejected. -/
theorem c8_amended (elfParse : List Nat → Option DwarfInfo)
    (sections : List PESection) (data : List Nat) :
    try_pe_sections sections = none ∧
    extract_dwarf_info elfParse sections data = try_watcom_elf elfParse data ∧
    (∀ off, findSubIndex elfMagic data = some off →
      (data.drop off).length < 52 → try_watcom_elf elfParse data = none) := by
  have hpe : try_pe_sections sections = none := by
    simp only [try_pe_sections]
    split
    · rfl
    · split <;> rfl
  refine ⟨hpe, ?_, ?_⟩
  · unfold extract_dwarf_info
    rw [hpe]
  · intro off hoff hlen
    simp only [try_watcom_elf, hoff]
    rw [if_pos hlen]

theorem c8_amended_witness :
    try_pe_sections sectionsDbg = none ∧
    extract_dwarf_info (fun _ => some { handle := 2 }) sectionsDbg elfMagic
      = try_watcom_elf (fun _ => some { handle := 2 }) elfMagic ∧
    try_watcom_elf (fun _ => some { handle := 2 }) elfMagic = none := by
  obtain ⟨h1, h2, h3⟩ :=
    c8_amended (fun _ => some { handle := 2 }) sectionsDbg elfMagic
  exact ⟨h1, h2, h3 0 (by decide) (by decide)⟩

/-! ## Claim C9 -/

/-- Module-manager events. -/
inductive MMEvent where
  | load (name : List Nat) (base_address : Nat) (path : List Nat) (size : Nat)
      (dbg : DebugLoad)
  | unload (base_address : Nat)

def mmStep (mm : MMState) : MMEvent → MMState
  | .load n b p s d => on_module_loaded mm n b p s d
  | .unload b => on_module_unloaded mm b

def runEvents (mm : MMState) : List MMEvent → MMState
  | [] => mm
  | e :: rest => runEvents (mmStep mm e) rest

def mmEmpty : MMState := { modules := [], modules_by_name := [] }

def dbgNone : DebugLoad :=
  { code_section_offset := 0, has_debug_info := false, line_info := none }

/-- The state after loading two modules whose names differ only by case and
then unloading the first. -/
def mmCex : MMState :=
  runEvents mmEmpty
    [MMEvent.load (strBytes "X.DLL") 1000 (strBytes "C:\\X.DLL") 0 dbgNone,
     MMEvent.load (strBytes "x.dll") 2000 (strBytes "C:\\x.dll") 0 dbgNone,
     MMEvent.unload 1000]

/-- Claim C9 counterexample: after loading `X.DLL` and `x.dll` (same
case-insensitive name) and unloading the first, the second is still in the
base-address map but `get_module_by_name` no longer finds it: the unload
handler deletes the shared name-map entry unconditionally. -/
theorem c9_counterexample :
    ∃ p ∈ mmCex.modules, lower p.2.name = lower (strBytes "x.dll") ∧
      get_module_by_name mmCex p.2.name = none := by
  refine ⟨(2000,
    { name := strBytes "x.dll"
      base_address := 2000
      path := strBytes "C:\\x.dll"
      size := 0
      has_debug_info := false
      line_info := none
      code_section_offset := 0 }), ?_, ?_, ?_⟩
  · decide
  · decide
  · decide

/-! ### C9 amended: further dictionary lemmas and the name-map invariant -/

theorem dictFind_dictSet_ne {α β : Type} [DecidableEq α] (l : List (α × β)) (k k2 : α)
    (v : β) (h : k2 ≠ k) : dictFind (dictSet l k v) k2 = dictFind l k2 := by
  have hk : ¬ k = k2 := fun hh => h hh.symm
  induction l with
  | nil => simp [dictSet, dictFind, hk]
  | cons e rest ih =>
    by_cases he : e.1 = k
    · simp [dictSet, dictFind, he, hk]
    · simp only [dictSet, if_neg he, dictFind]
      by_cases he2 : e.1 = k2
      · simp [he2]
      · simp [he2, ih]

theorem mem_dictSet {α β : Type} [DecidableEq α] (l : List (α × β)) (k : α) (v : β)
    (p : α × β) (h : p ∈ dictSet l k v) : p = (k, v) ∨ p ∈ l := by
  induction l with
  | nil => simpa [dictSet] using h
  | cons e rest ih =>
    by_cases he : e.1 = k
    · simp only [dictSet, if_pos he, List.mem_cons] at h
      rcases h with h | h
      · exact Or.inl h
      · exact Or.inr (List.mem_cons_of_mem e h)
    · simp only [dictSet, if_neg he, List.mem_cons] at h
      rcases h with h | h
      · exact Or.inr (by simp [h])
      · rcases ih h with h2 | h2
        · exact Or.inl h2
        · exact Or.inr (List.mem_cons_of_mem e h2)

theorem dictFind_some_mem {α β : Type} [DecidableEq α] (l : List (α × β)) (k : α) (v : β)
    (h : dictFind l k = some v) : (k, v) ∈ l := by
  induction l with
  | nil => simp [dictFind] at h
  | cons e rest ih =>
    by_cases he : e.1 = k
    · simp only [dictFind, if_pos he, Option.some_inj] at h
      have : e = (k, v) := by
        cases e
        simp_all
      simp [this]
    · simp only [dictFind, if_neg he] at h
      exact List.mem_cons_of_mem e (ih h)

theorem mem_dictRemove {α β : Type} [DecidableEq α] (l : List (α × β)) (k : α)
    (p : α × β) (h : p ∈ dictRemove l k) : p ∈ l := by
  induction l with
  | nil => simp [dictRemove] at h
  | cons e rest ih =>
    by_cases he : e.1 = k
    · simp only [dictRemove, if_pos he] at h
      exact List.mem_cons_of_mem e h
    · simp only [dictRemove, if_neg he, List.mem_cons] at h
      rcases h with h | h
      · simp [h]
      · exact List.mem_cons_of_mem e (ih h)

theorem mem_dictRemove_key_ne {α β : Type} [DecidableEq α] (l : List (α × β)) (k : α)
    (p : α × β) (hnd : (l.map Prod.fst).Nodup) (h : p ∈ dictRemove l k) : p.1 ≠ k := by
  induction l with
  | nil => simp [dictRemove] at h
  | cons e rest ih =>
    simp only [List.map_cons, List.nodup_cons] at hnd
    by_cases he : e.1 = k
    · simp only [dictRemove, if_pos he] at h
      intro hpk
      apply hnd.1
      rw [he, ← hpk]
      exact List.mem_map_of_mem Prod.fst h
    · simp only [dictRemove, if_neg he, List.mem_cons] at h
      rcases h with h | h
      · rw [h]; exact he
      · exact ih hnd.2 h

theorem dictFind_dictRemove_ne {α β : Type} [DecidableEq α] (l : List (α × β)) (k k2 : α)
    (h : k2 ≠ k) : dictFind (dictRemove l k) k2 = dictFind l k2 := by
  induction l with
  | nil => rfl
  | cons e rest ih =>
    have hk : ¬ k = k2 := fun hh => h hh.symm
    by_cases he : e.1 = k
    · simp [dictRemove, dictFind, he, hk]
    · simp only [dictRemove, if_neg he, dictFind]
      by_cases he2 : e.1 = k2
      · simp [he2]
      · simp [he2, ih]

theorem dictSet_keys_nodup {α β : Type} [DecidableEq α] (l : List (α × β)) (k : α)
    (v : β) (hnd : (l.map Prod.fst).Nodup) : ((dictSet l k v).map Prod.fst).Nodup := by
  induction l with
  | nil => simp [dictSet]
  | cons e rest ih =>
    simp only [List.map_cons, List.nodup_cons] at hnd
    by_cases he : e.1 = k
    · simp only [dictSet, if_pos he, List.map_cons, List.nodup_cons]
      rw [← he]
      exact hnd
    · simp only [dictSet, if_neg he, List.map_cons, List.nodup_cons]
      refine ⟨?_, ih hnd.2⟩
      intro hmem
      have : ∃ p ∈ dictSet rest k v, e.1 = p.1 := by
        obtain ⟨p, hp, hpe⟩ := List.mem_map.mp hmem
        exact ⟨p, hp, hpe.symm⟩
      obtain ⟨p, hp, hpe⟩ := this
      rcases mem_dictSet rest k v p hp with rfl | hpold
      · exact he (by simpa using hpe)
      · exact hnd.1 (by rw [hpe]; exact List.mem_map_of_mem Prod.fst hpold)

theorem dictRemove_keys_nodup {α β : Type} [DecidableEq α] (l : List (α × β)) (k : α)
    (hnd : (l.map Prod.fst).Nodup) : ((dictRemove l k).map Prod.fst).Nodup := by
  induction l with
  | nil => simp [dictRemove]
  | cons e rest ih =>
    simp only [List.map_cons, List.nodup_cons] at hnd
    by_cases he : e.1 = k
    · simp only [dictRemove, if_pos he]
      exact hnd.2
    · simp only [dictRemove, if_neg he, List.map_cons, List.nodup_cons]
      refine ⟨?_, ih hnd.2⟩
      intro hmem
      obtain ⟨p, hp, hpe⟩ := List.mem_map.mp hmem
      exact hnd.1 (by rw [← hpe]; exact List.mem_map_of_mem Prod.fst (mem_dictRemove rest k p hp))

/-- The lookup-consistency invariant of the module manager: base-map keys
are unique, each module records its own base address, and the name map
resolves every loaded module's lowercased name to that module. -/
def MMInv (mm : MMState) : Prop :=
  (mm.modules.map Prod.fst).Nodup ∧
  ∀ p ∈ mm.modules, p.2.base_address = p.1 ∧
    dictFind mm.modules_by_name (lower p.2.name) = some p.2

/-- Event sequences whose loads always carry a case-insensitively fresh
module name relative to the currently loaded modules. -/
def FreshNames (mm : MMState) : List MMEvent → Prop
  | [] => True
  | e :: rest =>
    (match e with
     | MMEvent.load n _ _ _ _ => ∀ p ∈ mm.modules, lower p.2.name ≠ lower n
     | MMEvent.unload _ => True) ∧ FreshNames (mmStep mm e) rest

theorem mmInv_load (mm : MMState) (n : List Nat) (b : Nat) (pth : List Nat) (sz : Nat)
    (d : DebugLoad) (hinv : MMInv mm)
    (hfresh : ∀ p ∈ mm.modules, lower p.2.name ≠ lower n) :
    MMInv (on_module_loaded mm n b pth sz d) := by
  obtain ⟨hnd, hmap⟩ := hinv
  simp only [MMInv, on_module_loaded]
  constructor
  · exact dictSet_keys_nodup mm.modules b _ hnd
  · intro p hp
    rcases mem_dictSet mm.modules b _ p hp with rfl | hpold
    · exact ⟨rfl, dictFind_dictSet_self mm.modules_by_name (lower n) _⟩
    · obtain ⟨hbase, hfind⟩ := hmap p hpold
      refine ⟨hbase, ?_⟩
      rw [dictFind_dictSet_ne mm.modules_by_name (lower n) (lower p.2.name) _
        (hfresh p hpold)]
      exact hfind

theorem mmInv_unload (mm : MMState) (b : Nat) (hinv : MMInv mm) :
    MMInv (on_module_unloaded mm b) := by
  obtain ⟨hnd, hmap⟩ := hinv
  rcases hfb : dictFind mm.modules b with _ | module
  · simpa [MMInv, on_module_unloaded, hfb] using And.intro hnd hmap
  · have hbmem : (b, module) ∈ mm.modules := dictFind_some_mem mm.modules b module hfb
    simp only [MMInv, on_module_unloaded, hfb]
    constructor
    · exact dictRemove_keys_nodup mm.modules b hnd
    · intro p hp
      have hpmem : p ∈ mm.modules := mem_dictRemove mm.modules b p hp
      have hpne : p.1 ≠ b := mem_dictRemove_key_ne mm.modules b p hnd hp
      obtain ⟨hbase, hfind⟩ := hmap p hpmem
      have hnames : lower p.2.name ≠ lower module.name := by
        intro heq
        have hfind2 := hfind
        rw [heq, (hmap (b, module) hbmem).2] at hfind2
        have hpm : p.2 = module := (Option.some_inj.mp hfind2).symm
        apply hpne
        rw [← hbase, hpm]
        exact (hmap (b, module) hbmem).1
      refine ⟨hbase, ?_⟩
      by_cases hk : dictHasKey mm.modules_by_name (lower module.name) = true
      · rw [if_pos hk, dictFind_dictRemove_ne mm.modules_by_name (lower module.name)
          (lower p.2.name) hnames]
        exact hfind
      · rw [if_neg hk]
        exact hfind

theorem mmInv_run (events : List MMEvent) :
    ∀ (mm : MMState), MMInv mm → FreshNames mm events →
      MMInv (runEvents mm events) := by
  induction events with
  | nil => intro mm hinv _; exact hinv
  | cons e rest ih =>
    intro mm hinv hfresh
    obtain ⟨hhead, htail⟩ := hfresh
    apply ih (mmStep mm e) _ htail
    cases e with
    | load n b p s d => exact mmInv_load mm n b p s d hinv hhead
    | unload b => exact mmInv_unload mm b hinv

/-- Claim C9 amended: the lookup-consistency invariant holds for every
sequence of load and unload events in which no two simultaneously loaded
modules share a case-insensitive name: every module still in the
base-address map is found by `get_module_by_name` under its own name. (As
stated, the claim fails when two loaded modules share a case-insensitive
name: unloading one deletes the shared name-map entry, orphaning the
other.) -/
theorem c9_amended (events : List MMEvent) (hfresh : FreshNames mmEmpty events) :
    ∀ p ∈ (runEvents mmEmpty events).modules,
      get_module_by_name (runEvents mmEmpty events) p.2.name = some p.2 := by
  have hinv := mmInv_run events mmEmpty ⟨by simp [mmEmpty], by simp [mmEmpty]⟩ hfresh
  intro p hp
  exact (hinv.2 p hp).2

def eventsFresh : List MMEvent :=
  [MMEvent.load (strBytes "X.DLL") 1000 (strBytes "C:\\X.DLL") 0 dbgNone,
   MMEvent.load (strBytes "y.dll") 2000 (strBytes "C:\\y.dll") 0 dbgNone,
   MMEvent.unload 1000]

/-- The module loaded second in `eventsFresh`, still loaded at the end. -/
def modY : Module :=
  { name := strBytes "y.dll"
    base_address := 2000
    path := strBytes "C:\\y.dll"
    size := 0
    has_debug_info := false
    line_info := none
    code_section_offset := 0 }

theorem c9_amended_witness :
    get_module_by_name (runEvents mmEmpty eventsFresh) modY.name = some modY :=
  c9_amended eventsFresh ⟨by decide, by decide, trivial, trivial⟩ (2000, modY)
    (by decide)

/-! ## Claim C10 -/

theorem byteAddAnd127 : ∀ c < 128, (c + 128) &&& 127 = c := by decide

theorem byteAddAnd128 : ∀ c < 128, (c + 128) &&& 128 ≠ 0 := by decide

theorem byteAnd127 : ∀ c < 128, c &&& 127 = c := by decide

theorem byteAnd128 : ∀ c < 128, c &&& 128 = 0 := by decide

theorem byteOrAnd127 : ∀ c < 128, (c ||| 128) &&& 127 = c := by decide

theorem byteOrAnd128 : ∀ c < 128, (c ||| 128) &&& 128 ≠ 0 := by decide

/-- Combining one 7-bit group at shift `s` with the rest at shift `s + 7`. -/
theorem chunkCombine (c hi s : Nat) (hc : c < 128) :
    (c <<< s) ||| (hi <<< (s + 7)) = (c + 128 * hi) <<< s := by
  have hb : c * 2 ^ s < 2 ^ (s + 7) := by
    calc c * 2 ^ s < 128 * 2 ^ s := by
          exact Nat.mul_lt_mul_of_lt_of_le hc (le_refl _) (Nat.two_pow_pos s)
    _ = 2 ^ (s + 7) := by rw [pow_add]; ring
  rw [Nat.shiftLeft_eq, Nat.shiftLeft_eq, Nat.shiftLeft_eq]
  rw [Nat.lor_comm]
  calc (hi * 2 ^ (s + 7)) ||| (c * 2 ^ s)
      = (2 ^ (s + 7) * hi) ||| (c * 2 ^ s) := by rw [Nat.mul_comm hi]
    _ = 2 ^ (s + 7) * hi + c * 2 ^ s := (Nat.mul_add_lt_is_or hb hi).symm
    _ = (c + 128 * hi) * 2 ^ s := by rw [pow_add]; ring

theorem decodeUlebAux_encode (n : Nat) :
    ∀ (acc s off : Nat), decodeUlebAux (ulebEncode n) acc s off =
      (acc ||| (n <<< s), off + (ulebEncode n).length) := by
  induction n using Nat.strong_induction_on with
  | _ n ih =>
    intro acc s off
    by_cases h : n < 128
    · rw [ulebEncode, dif_pos h]
      simp only [decodeUlebAux, byteAnd127 n h, byteAnd128 n h, List.length_cons,
        List.length_nil]
      simp
    · rw [ulebEncode, dif_neg h]
      push_neg at h
      have hien := ih (n / 128) (Nat.div_lt_self (by omega) (by omega))
      simp only [decodeUlebAux, byteAddAnd127 (n % 128) (Nat.mod_lt n (by omega)),
        byteAddAnd128 (n % 128) (Nat.mod_lt n (by omega)), List.length_cons, hien]
      simp only [if_false, Prod.mk.injEq]
      constructor
      · rw [Nat.lor_assoc, chunkCombine (n % 128) (n / 128) s (Nat.mod_lt n (by omega)),
          Nat.mod_add_div n 128]
      · omega

theorem ldiff_mask (s r : Nat) (h : r < 2 ^ s) :
    Nat.ldiff (2 ^ s - 1) r = 2 ^ s - 1 - r := by
  apply Nat.eq_of_testBit_eq
  intro i
  have h2 : 2 ^ s - 1 - r = 2 ^ s - (r + 1) := by omega
  rw [Nat.testBit_ldiff, h2, Nat.testBit_two_pow_sub_succ h,
    Nat.testBit_two_pow_sub_one]

/-- Python `result |= -(1 << shift)` on a non-negative `result` whose bits
lie below `shift` is sign extension: it subtracts `2 ^ shift`. -/
theorem intLor_neg_two_pow (r s : Nat) (h : r < 2 ^ s) :
    Int.lor (r : Int) (-((2 ^ s : Nat) : Int)) = (r : Int) - ((2 ^ s : Nat) : Int) := by
  have hpos : 1 ≤ 2 ^ s := Nat.one_le_two_pow
  have h1 : -((2 ^ s : Nat) : Int) = Int.negSucc (2 ^ s - 1) := by
    rw [Int.negSucc_eq]
    omega
  rw [h1]
  have h2 : Int.lor (r : Int) (Int.negSucc (2 ^ s - 1)) =
      Int.negSucc (Nat.ldiff (2 ^ s - 1) r) := rfl
  rw [h2, ldiff_mask s r h, Int.negSucc_eq]
  omega

theorem lor_small_add (acc b s : Nat) (hacc : acc < 2 ^ s) :
    acc ||| (b <<< s) = acc + b * 2 ^ s := by
  calc acc ||| (b <<< s) = (2 ^ s * b) ||| acc := by
        rw [Nat.shiftLeft_eq, Nat.lor_comm, Nat.mul_comm]
    _ = 2 ^ s * b + acc := (Nat.mul_add_lt_is_or hacc b).symm
    _ = acc + b * 2 ^ s := by ring

theorem decodeSlebAux_encodePos (n : Nat) :
    ∀ (acc s off lb : Nat), decodeSlebAux (slebEncodePos n) acc s off lb =
      (((acc ||| (n <<< s) : Nat) : Int), off + (slebEncodePos n).length) := by
  induction n using Nat.strong_induction_on with
  | _ n ih =>
    intro acc s off lb
    by_cases h : n / 128 = 0 ∧ (n % 128) &&& 0x40 = 0
    · rw [slebEncodePos, dif_pos h]
      have hn : n < 128 := by omega
      have hmod : n % 128 = n := Nat.mod_eq_of_lt hn
      have h64 : n &&& 64 = 0 := hmod ▸ h.2
      simp only [decodeSlebAux, hmod, byteAnd127 n hn, byteAnd128 n hn]
      rw [ite_self]
      simp only [slebFinalize]
      rw [if_neg (fun hc => hc.2 h64)]
      simp
    · rw [slebEncodePos, dif_neg h]
      have hn0 : 0 < n := by
        rcases Nat.eq_zero_or_pos n with h0 | h0
        · subst h0
          exact absurd (by decide) h
        · exact h0
      have hmlt : n % 128 < 128 := Nat.mod_lt n (by omega)
      have hien := ih (n / 128) (Nat.div_lt_self hn0 (by omega))
      simp only [decodeSlebAux, byteOrAnd127 (n % 128) hmlt]
      rw [if_neg (byteOrAnd128 (n % 128) hmlt)]
      rw [hien]
      simp only [List.length_cons, Prod.mk.injEq]
      constructor
      · congr 1
        rw [Nat.lor_assoc, chunkCombine (n % 128) (n / 128) s hmlt, Nat.mod_add_div n 128]
      · omega

theorem slebEncodeNeg_m_lt (m : Nat) : m < 128 ^ (slebEncodeNeg m).length := by
  induction m using Nat.strong_induction_on with
  | _ m ih =>
    by_cases h : m / 128 = 0 ∧ (127 - m % 128) &&& 0x40 ≠ 0
    · rw [slebEncodeNeg, dif_pos h]
      simp only [List.length_cons, List.length_nil, pow_one]
      omega
    · rw [slebEncodeNeg, dif_neg h]
      have hm0 : 0 < m := by
        rcases Nat.eq_zero_or_pos m with h0 | h0
        · subst h0
          exact absurd (by decide) h
        · exact h0
      have hdiv := ih (m / 128) (Nat.div_lt_self hm0 (by omega))
      simp only [List.length_cons]
      have hp : 128 ^ ((slebEncodeNeg (m / 128)).length + 1)
          = 128 * 128 ^ (slebEncodeNeg (m / 128)).length := by
        rw [pow_succ]; ring
      omega

theorem slebEncodeNeg_length_le (k : Nat) :
    ∀ m, m < 128 ^ k → (slebEncodeNeg m).length ≤ k + 1 := by
  induction k with
  | zero =>
    intro m hm
    have hm0 : m = 0 := by simpa using hm
    subst hm0
    rw [slebEncodeNeg, dif_pos (by decide)]
    simp
  | succ k ihk =>
    intro m hm
    by_cases h : m / 128 = 0 ∧ (127 - m % 128) &&& 0x40 ≠ 0
    · rw [slebEncodeNeg, dif_pos h]
      simp
    · rw [slebEncodeNeg, dif_neg h]
      simp only [List.length_cons]
      have hdiv : m / 128 < 128 ^ k := by
        have hp : 128 ^ (k + 1) = 128 * 128 ^ k := by rw [pow_succ]; ring
        omega
      have := ihk (m / 128) hdiv
      omega

theorem decodeSlebAux_encodeNeg (m : Nat) :
    ∀ (acc s off lb : Nat), acc < 2 ^ s →
      s + 7 * (slebEncodeNeg m).length < 64 →
      decodeSlebAux (slebEncodeNeg m) acc s off lb =
        (((acc + (128 ^ (slebEncodeNeg m).length - 1 - m) * 2 ^ s : Nat) : Int)
          - ((2 ^ (s + 7 * (slebEncodeNeg m).length) : Nat) : Int),
         off + (slebEncodeNeg m).length) := by
  induction m using Nat.strong_induction_on with
  | _ m ih =>
    intro acc s off lb hacc hshift
    by_cases h : m / 128 = 0 ∧ (127 - m % 128) &&& 0x40 ≠ 0
    · rw [slebEncodeNeg, dif_pos h] at hshift ⊢
      simp only [List.length_cons, List.length_nil] at hshift ⊢
      have hm : m < 128 := by omega
      have hmod : m % 128 = m := Nat.mod_eq_of_lt hm
      have hb : 127 - m < 128 := by omega
      have h64 : (127 - m) &&& 64 ≠ 0 := by
        have := h.2
        rw [hmod] at this
        exact this
      simp only [decodeSlebAux, hmod, byteAnd127 _ hb, byteAnd128 _ hb]
      rw [ite_self]
      rw [lor_small_add acc (127 - m) s hacc]
      have hlt : acc + (127 - m) * 2 ^ s < 2 ^ (s + 7) := by
        have hmul : (127 - m) * 2 ^ s ≤ 127 * 2 ^ s :=
          Nat.mul_le_mul_right (2 ^ s) (by omega)
        have hpow : (2 : Nat) ^ (s + 7) = 128 * 2 ^ s := by
          rw [pow_add]; norm_num; ring
        omega
      simp only [slebFinalize]
      rw [if_pos ⟨by omega, h64⟩, Nat.one_shiftLeft,
        intLor_neg_two_pow (acc + (127 - m) * 2 ^ s) (s + 7) hlt]
      simp only [Prod.mk.injEq]
      constructor
      · have h1 : (128 : Nat) ^ 1 - 1 - m = 127 - m := by norm_num
        have h2 : s + 7 * 1 = s + 7 := by ring
        rw [h1, h2]
      · trivial
    · rw [slebEncodeNeg, dif_neg h] at hshift ⊢
      simp only [List.length_cons] at hshift ⊢
      have hm0 : 0 < m := by
        rcases Nat.eq_zero_or_pos m with h0 | h0
        · subst h0
          exact absurd (by decide) h
        · exact h0
      have hmlt : 127 - m % 128 < 128 := by omega
      have hdivlt := slebEncodeNeg_m_lt (m / 128)
      have hien := ih (m / 128) (Nat.div_lt_self hm0 (by omega))
      simp only [decodeSlebAux, byteOrAnd127 _ hmlt]
      rw [if_neg (byteOrAnd128 _ hmlt)]
      rw [lor_small_add acc (127 - m % 128) s hacc]
      have hlt : acc + (127 - m % 128) * 2 ^ s < 2 ^ (s + 7) := by
        have hmul : (127 - m % 128) * 2 ^ s ≤ 127 * 2 ^ s :=
          Nat.mul_le_mul_right (2 ^ s) (by omega)
        have hpow : (2 : Nat) ^ (s + 7) = 128 * 2 ^ s := by
          rw [pow_add]; norm_num; ring
        omega
      rw [hien (acc + (127 - m % 128) * 2 ^ s) (s + 7) (off + 1) _ hlt (by omega)]
      simp only [Prod.mk.injEq]
      set L := (slebEncodeNeg (m / 128)).length with hL
      constructor
      · have hexp : s + 7 + 7 * L = s + 7 * (L + 1) := by ring
        have hpow7 : (2 : Nat) ^ (s + 7) = 128 * 2 ^ s := by
          rw [pow_add]; norm_num; ring
        have hbr : (127 - m % 128) + 128 * (128 ^ L - 1 - m / 128)
            = 128 ^ (L + 1) - 1 - m := by
          have hp : (128 : Nat) ^ (L + 1) = 128 * 128 ^ L := by rw [pow_succ]; ring
          omega
        have hnat : acc + (127 - m % 128) * 2 ^ s + (128 ^ L - 1 - m / 128) * 2 ^ (s + 7)
            = acc + (128 ^ (L + 1) - 1 - m) * 2 ^ s := by
          rw [hpow7]
          calc acc + (127 - m % 128) * 2 ^ s + (128 ^ L - 1 - m / 128) * (128 * 2 ^ s)
              = acc + ((127 - m % 128) + 128 * (128 ^ L - 1 - m / 128)) * 2 ^ s := by
                ring
            _ = acc + (128 ^ (L + 1) - 1 - m) * 2 ^ s := by rw [hbr]
        rw [hnat, hexp]
      · omega

/-- Claim C10: LEB128 decoding is a left inverse of canonical encoding for
32-bit values: `_decode_uleb128` on the canonical unsigned encoding of any
`n < 2^32` returns `n` with the encoding length, and `_decode_sleb128` on
the canonical signed encoding of any 32-bit signed integer returns that
integer (correctly sign-extended) with the encoding length. -/
theorem c10_leb128_roundtrip :
    (∀ n : Nat, n < 2 ^ 32 →
      decode_uleb128 (ulebEncode n) = (n, (ulebEncode n).length)) ∧
    (∀ i : Int, -(2 ^ 31) ≤ i → i < 2 ^ 31 →
      decode_sleb128 (slebEncode i) = (i, (slebEncode i).length)) := by
  constructor
  · intro n _
    rw [decode_uleb128, decodeUlebAux_encode n 0 0 0]
    simp
  · intro i hlo hhi
    by_cases hpos : 0 ≤ i
    · rw [slebEncode, if_pos hpos, decode_sleb128,
        decodeSlebAux_encodePos i.toNat 0 0 0 0]
      simp [Int.toNat_of_nonneg hpos]
    · rw [slebEncode, if_neg hpos, decode_sleb128]
      norm_num at hlo hhi
      have hm : ((-1 - i).toNat : Int) = -1 - i := Int.toNat_of_nonneg (by omega)
      have hmlt : (-1 - i).toNat < 128 ^ 5 := by
        have h5 : (128 : Nat) ^ 5 = 34359738368 := by norm_num
        omega
      have hlen := slebEncodeNeg_length_le 5 (-1 - i).toNat hmlt
      have hmL := slebEncodeNeg_m_lt (-1 - i).toNat
      rw [decodeSlebAux_encodeNeg (-1 - i).toNat 0 0 0 0 (by norm_num) (by omega)]
      simp only [Prod.mk.injEq]
      set L := (slebEncodeNeg (-1 - i).toNat).length with hL
      set m := (-1 - i).toNat with hmdef
      have hpw : (128 : Nat) ^ L = 2 ^ (7 * L) := by
        rw [show (128 : Nat) = 2 ^ 7 from rfl, ← pow_mul]
      have hml2 : m < 2 ^ (7 * L) := by rw [← hpw]; exact hmL
      have hsimpl : (0 + (128 ^ L - 1 - m) * 2 ^ (0 : Nat) : Nat)
          = 2 ^ (7 * L) - 1 - m := by
        rw [pow_zero, Nat.mul_one, Nat.zero_add, hpw]
      have hexp : 0 + 7 * L = 7 * L := Nat.zero_add _
      rw [hsimpl, hexp]
      constructor
      · omega
      · omega

theorem c10_leb128_roundtrip_witness :
    decode_uleb128 (ulebEncode 624485) = (624485, (ulebEncode 624485).length) ∧
    decode_sleb128 (slebEncode (-123456)) = (-123456, (slebEncode (-123456)).length) :=
  ⟨c10_leb128_roundtrip.1 624485 (by norm_num),
   c10_leb128_roundtrip.2 (-123456) (by norm_num) (by norm_num)⟩

/-! ## String lemmas for C4 and C5 -/

theorem isSep_asciiLower (c : Nat) : isSep (asciiLower c) = isSep c := by
  unfold asciiLower isSep
  split_ifs with h
  · simp only [decide_eq_decide]
    omega
  · rfl

theorem basename_lower_comm (s : List Nat) : basename (lower s) = lower (basename s) := by
  unfold basename lower
  rw [← List.map_reverse, List.takeWhile_map, List.map_reverse]
  have hpred : ((fun c => ! isSep c) ∘ asciiLower) = (fun c : Nat => ! isSep c) := by
    funext c
    simp [Function.comp, isSep_asciiLower]
  rw [hpred]

theorem pathJoin_ne_unknown (a b : List Nat) : pathJoin a b ≠ strBytes "unknown" := by
  intro h
  have hmem : (92 : Nat) ∈ pathJoin a b := by simp [pathJoin]
  rw [h] at hmem
  exact absurd hmem (by decide)

/-! ## Append lemmas for the dictionary model -/

theorem dictSet_fresh_append {α β : Type} [DecidableEq α] (l : List (α × β)) (k : α)
    (v : β) (h : dictFind l k = none) : dictSet l k v = l ++ [(k, v)] := by
  induction l with
  | nil => rfl
  | cons e rest ih =>
    by_cases he : e.1 = k
    · simp [dictFind, he] at h
    · simp only [dictFind, if_neg he] at h
      simp [dictSet, he, ih h]

theorem dictFind_append {α β : Type} [DecidableEq α] (l1 l2 : List (α × β)) (k : α) :
    dictFind (l1 ++ l2) k =
      (match dictFind l1 k with
       | some v => some v
       | none => dictFind l2 k) := by
  induction l1 with
  | nil => simp [dictFind]
  | cons e rest ih =>
    by_cases he : e.1 = k
    · simp [dictFind, he]
    · simp [dictFind, he, ih]

theorem mem_dictSetIfAbsent {α β : Type} [DecidableEq α] (l : List (α × β)) (k : α)
    (v : β) (p : α × β) (h : p ∈ dictSetIfAbsent l k v) : p ∈ l ∨ p = (k, v) := by
  unfold dictSetIfAbsent at h
  split at h
  · exact Or.inl h
  · rcases List.mem_append.mp h with h2 | h2
    · exact Or.inl h2
    · exact Or.inr (by simpa using h2)

/-! ## Soundness of the line-program caches -/

theorem rowsAux_cons_none (fp : List (List Nat)) (rest : List LPEntry) :
    rowsAux fp ({ state := none } :: rest) = rowsAux fp rest := by
  simp [rowsAux]

theorem rowsAux_cons_end (fp : List (List Nat)) (st : LPState) (rest : List LPEntry)
    (hes : st.end_sequence = true) :
    rowsAux fp ({ state := some st } :: rest) = rowsAux fp rest := by
  simp [rowsAux, List.filterMap_cons, hes]

theorem rowsAux_cons_rec (fp : List (List Nat)) (st : LPState) (rest : List LPEntry)
    (hes : st.end_sequence = false) :
    rowsAux fp ({ state := some st } :: rest)
      = rowLoc fp st :: rowsAux fp rest := by
  simp [rowsAux, List.filterMap_cons, hes]

theorem foldEntries_sound (fp : List (List Nat)) (entries : List LPEntry) :
    ∀ (c : Caches),
      (∀ p ∈ (entries.foldl (processEntry fp) c).addr,
        p ∈ c.addr ∨ ∃ loc ∈ rowsAux fp entries, p = (loc.address, loc)) ∧
      (∀ q ∈ (entries.foldl (processEntry fp) c).line,
        q ∈ c.line ∨ ∃ loc ∈ rowsAux fp entries, q = ((loc.file, loc.line), loc.address)) := by
  induction entries with
  | nil => intro c; exact ⟨fun p hp => Or.inl hp, fun q hq => Or.inl hq⟩
  | cons e rest ih =>
    intro c
    rcases e with ⟨he⟩
    rcases he with _ | st
    · have hstep : processEntry fp c { state := none } = c := rfl
      simp only [List.foldl_cons, hstep, rowsAux_cons_none]
      exact ih c
    · by_cases hes : st.end_sequence = true
      · have hstep : processEntry fp c { state := some st } = c := by
          simp [processEntry, hes]
        simp only [List.foldl_cons, hstep, rowsAux_cons_end fp st rest hes]
        exact ih c
      · rw [Bool.not_eq_true] at hes
        have hstep : processEntry fp c { state := some st } =
            { addr := dictSet c.addr st.address (rowLoc fp st)
              line := dictSetIfAbsent c.line ((rowLoc fp st).file, st.line) st.address } := by
          simp [processEntry, hes]
        simp only [List.foldl_cons, hstep, rowsAux_cons_rec fp st rest hes]
        constructor
        · intro p hp
          rcases (ih _).1 p hp with hin | ⟨loc, hloc, hpe⟩
          · rcases mem_dictSet _ _ _ p hin with hpe | hin2
            · exact Or.inr ⟨rowLoc fp st, List.mem_cons_self _ _, hpe⟩
            · exact Or.inl hin2
          · exact Or.inr ⟨loc, List.mem_cons_of_mem _ hloc, hpe⟩
        · intro q hq
          rcases (ih _).2 q hq with hin | ⟨loc, hloc, hqe⟩
          · rcases mem_dictSetIfAbsent _ _ _ q hin with hin2 | hqe
            · exact Or.inl hin2
            · refine Or.inr ⟨rowLoc fp st, List.mem_cons_self _ _, ?_⟩
              rw [hqe]
              rfl
          · exact Or.inr ⟨loc, List.mem_cons_of_mem _ hloc, hqe⟩

theorem foldCU_sound (cus : List CUData) :
    ∀ (c : Caches),
      (∀ p ∈ (cus.foldl processCU c).addr,
        p ∈ c.addr ∨ ∃ cu ∈ cus, ∃ loc ∈ recordedOfCU cu, p = (loc.address, loc)) ∧
      (∀ q ∈ (cus.foldl processCU c).line,
        q ∈ c.line ∨ ∃ cu ∈ cus, ∃ loc ∈ recordedOfCU cu,
          q = ((loc.file, loc.line), loc.address)) := by
  induction cus with
  | nil => intro c; simp
  | cons cu rest ih =>
    intro c
    constructor
    · intro p hp
      rcases (ih (processCU c cu)).1 p hp with hin | ⟨cu2, hcu2, loc, hloc, hpe⟩
      · rcases (foldEntries_sound cu.filePaths cu.entries c).1 p hin with hin2 | ⟨loc, hloc, hpe⟩
        · exact Or.inl hin2
        · exact Or.inr ⟨cu, List.mem_cons_self _ _, loc, hloc, hpe⟩
      · exact Or.inr ⟨cu2, List.mem_cons_of_mem _ hcu2, loc, hloc, hpe⟩
    · intro q hq
      rcases (ih (processCU c cu)).2 q hq with hin | ⟨cu2, hcu2, loc, hloc, hqe⟩
      · rcases (foldEntries_sound cu.filePaths cu.entries c).2 q hin with hin2 | ⟨loc, hloc, hqe⟩
        · exact Or.inl hin2
        · exact Or.inr ⟨cu, List.mem_cons_self _ _, loc, hloc, hqe⟩
      · exact Or.inr ⟨cu2, List.mem_cons_of_mem _ hcu2, loc, hloc, hqe⟩

theorem buildCache_sound (cus : List CUData) :
    (∀ p ∈ (buildCache cus).addr,
      ∃ cu ∈ cus, ∃ loc ∈ recordedOfCU cu, p = (loc.address, loc)) ∧
    (∀ q ∈ (buildCache cus).line,
      ∃ cu ∈ cus, ∃ loc ∈ recordedOfCU cu, q = ((loc.file, loc.line), loc.address)) := by
  constructor
  · intro p hp
    rcases (foldCU_sound cus { addr := [], line := [] }).1 p hp with hin | hout
    · simp at hin
    · exact hout
  · intro q hq
    rcases (foldCU_sound cus { addr := [], line := [] }).2 q hq with hin | hout
    · simp at hin
    · exact hout

/-! ## Exact shape of the address cache when row addresses are distinct -/

theorem dictFind_rows_none (rows : List SourceLocation) (a : Nat)
    (h : a ∉ rows.map (fun loc => loc.address)) :
    dictFind (rows.map (fun loc => (loc.address, loc))) a = none := by
  apply dictFind_none_of_not_mem
  rw [List.map_map]
  simpa [Function.comp] using h

theorem foldEntries_addr_eq (fp : List (List Nat)) (entries : List LPEntry) :
    ∀ (c : Caches),
      (∀ loc ∈ rowsAux fp entries, dictFind c.addr loc.address = none) →
      ((rowsAux fp entries).map (fun loc => loc.address)).Nodup →
      (entries.foldl (processEntry fp) c).addr
        = c.addr ++ (rowsAux fp entries).map (fun loc => (loc.address, loc)) := by
  induction entries with
  | nil => intro c _ _; simp [rowsAux]
  | cons e rest ih =>
    intro c hfresh hnd
    rcases e with ⟨he⟩
    rcases he with _ | st
    · rw [rowsAux_cons_none] at hfresh hnd ⊢
      simp only [List.foldl_cons]
      exact ih c hfresh hnd
    · by_cases hes : st.end_sequence = true
      · rw [rowsAux_cons_end fp st rest hes] at hfresh hnd ⊢
        simp only [List.foldl_cons]
        have hstep : processEntry fp c { state := some st } = c := by
          simp [processEntry, hes]
        rw [hstep]
        exact ih c hfresh hnd
      · rw [Bool.not_eq_true] at hes
        rw [rowsAux_cons_rec fp st rest hes] at hfresh hnd ⊢
        simp only [List.foldl_cons]
        have hstep : processEntry fp c { state := some st } =
            { addr := dictSet c.addr st.address (rowLoc fp st)
              line := dictSetIfAbsent c.line ((rowLoc fp st).file, st.line) st.address } := by
          simp [processEntry, hes]
        have hfr0 : dictFind c.addr st.address = none :=
          hfresh (rowLoc fp st) (List.mem_cons_self _ _)
        have haddr : dictSet c.addr st.address (rowLoc fp st)
            = c.addr ++ [(st.address, rowLoc fp st)] :=
          dictSet_fresh_append _ _ _ hfr0
        simp only [List.map_cons, List.nodup_cons] at hnd
        have hfresh2 : ∀ loc ∈ rowsAux fp rest,
            dictFind (c.addr ++ [(st.address, rowLoc fp st)]) loc.address = none := by
          intro loc hloc
          rw [dictFind_append, hfresh loc (List.mem_cons_of_mem _ hloc)]
          have hne : ¬ st.address = loc.address := by
            intro heq
            apply hnd.1
            show st.address ∈ List.map (fun loc => loc.address) (rowsAux fp rest)
            rw [heq]
            exact List.mem_map_of_mem _ hloc
          simp [dictFind, hne]
        rw [hstep, haddr, ih _ hfresh2 hnd.2]
        simp [rowLoc]

theorem recordedRows_cons (cu : CUData) (rest : List CUData) :
    recordedRows (cu :: rest) = recordedOfCU cu ++ recordedRows rest := by
  simp [recordedRows]

theorem foldCU_addr_eq (cus : List CUData) :
    ∀ (c : Caches),
      (∀ loc ∈ recordedRows cus, dictFind c.addr loc.address = none) →
      ((recordedRows cus).map (fun loc => loc.address)).Nodup →
      (cus.foldl processCU c).addr
        = c.addr ++ (recordedRows cus).map (fun loc => (loc.address, loc)) := by
  induction cus with
  | nil => intro c _ _; simp [recordedRows]
  | cons cu rest ih =>
    intro c hfresh hnd
    rw [recordedRows_cons] at hfresh hnd ⊢
    rw [List.map_append, List.nodup_append] at hnd
    obtain ⟨hnd1, hnd2, hdisj⟩ := hnd
    simp only [List.foldl_cons]
    have hcu : (processCU c cu).addr
        = c.addr ++ (recordedOfCU cu).map (fun loc => (loc.address, loc)) :=
      foldEntries_addr_eq cu.filePaths cu.entries c
        (fun loc hloc => hfresh loc (List.mem_append_left _ hloc)) hnd1
    have hfresh2 : ∀ loc ∈ recordedRows rest,
        dictFind (processCU c cu).addr loc.address = none := by
      intro loc hloc
      rw [hcu, dictFind_append, hfresh loc (List.mem_append_right _ hloc)]
      apply dictFind_rows_none
      intro hmem
      exact hdisj hmem (List.mem_map_of_mem _ hloc)
    rw [ih (processCU c cu) hfresh2 hnd2, hcu]
    simp [List.map_append]

theorem buildCache_addr_eq (cus : List CUData)
    (hnd : ((recordedRows cus).map (fun loc => loc.address)).Nodup) :
    (buildCache cus).addr = (recordedRows cus).map (fun loc => (loc.address, loc)) := by
  have h := foldCU_addr_eq cus { addr := [], line := [] } (fun loc _ => rfl) hnd
  simpa [buildCache] using h

/-! ## Lookup characterisations for the round trip -/

theorem address_to_line_exact (cache : List (Nat × SourceLocation)) (a0 : Nat)
    (loc : SourceLocation) (hnd : (cache.map Prod.fst).Nodup)
    (hmem : (a0, loc) ∈ cache) :
    address_to_line cache (a0 : Int) = some loc := by
  have hfind : ∃ e, cache.find? (fun e => (e.1 : Int) = (a0 : Int)) = some e := by
    have hsome : (cache.find? (fun e => (e.1 : Int) = (a0 : Int))).isSome := by
      rw [List.find?_isSome]
      exact ⟨(a0, loc), hmem, by simp⟩
    exact Option.isSome_iff_exists.mp hsome
  obtain ⟨e, he⟩ := hfind
  have hpe : (e.1 : Int) = (a0 : Int) := by simpa using List.find?_some he
  have hkey : e.1 = a0 := by exact_mod_cast hpe
  have hemem : (e.1, e.2) ∈ cache := List.mem_of_find?_eq_some he
  have hloc : e.2 = loc := by
    have e1 : dictFind cache a0 = some e.2 :=
      dictFind_eq_some_of_mem cache a0 e.2 hnd (by rw [← hkey]; exact hemem)
    have e2 : dictFind cache a0 = some loc :=
      dictFind_eq_some_of_mem cache a0 loc hnd hmem
    rw [e1] at e2
    exact Option.some_inj.mp e2
  simp only [address_to_line, he, hloc]

theorem line_to_address_found (cache : List ((List Nat × Nat) × Nat)) (f : List Nat)
    (l : Nat) (a : Nat) (h : line_to_address cache f l = some a) :
    ∃ f2, ((f2, l), a) ∈ cache ∧ lower (basename f2) = lower (basename f) := by
  simp only [line_to_address] at h
  rcases h1 : dictFind cache (f, l) with _ | a1
  · rw [h1] at h
    rcases h2 : cache.find? (fun e => basename e.1.1 = basename f ∧ e.1.2 = l)
        with _ | e2
    · rw [h2] at h
      rcases h3 : cache.find? (fun e =>
          (lower e.1.1 = lower f ∨ lower (basename e.1.1) = lower (basename f))
            ∧ e.1.2 = l) with _ | e3
      · rw [h3] at h
        exact Option.noConfusion h
      · rw [h3] at h
        have hpe : (lower e3.1.1 = lower f ∨
            lower (basename e3.1.1) = lower (basename f)) ∧ e3.1.2 = l := by
          simpa using List.find?_some h3
        have hmem : ((e3.1.1, e3.1.2), e3.2) ∈ cache := List.mem_of_find?_eq_some h3
        have hval : e3.2 = a := by simpa using h
        refine ⟨e3.1.1, ?_, ?_⟩
        · rw [← hpe.2, ← hval]
          exact hmem
        · rcases hpe.1 with hf | hf
          · have := congrArg basename hf
            rw [basename_lower_comm, basename_lower_comm] at this
            exact this
          · exact hf
    · rw [h2] at h
      have hpe : basename e2.1.1 = basename f ∧ e2.1.2 = l := by
        simpa using List.find?_some h2
      have hmem : ((e2.1.1, e2.1.2), e2.2) ∈ cache := List.mem_of_find?_eq_some h2
      have hval : e2.2 = a := by simpa using h
      refine ⟨e2.1.1, ?_, ?_⟩
      · rw [← hpe.2, ← hval]
        exact hmem
      · exact congrArg lower hpe.1
  · rw [h1] at h
    have hval : a1 = a := by simpa using h
    refine ⟨f, ?_, rfl⟩
    rw [← hval]
    exact dictFind_some_mem cache (f, l) a1 h1

/-! ## Claim C4 -/

/-- One line-program row for the C4 counterexample. -/
def c4state (l : Nat) : LPState :=
  { end_sequence := false, file := 2, line := l, column := 0, address := 0 }

def c4row (l : Nat) : LPEntry :=
  { state := some (c4state l) }

/-- Two rows sharing address 0 with different lines. -/
def c4cexCUs : List CUData :=
  [{ filePaths := [strBytes "unknown", strBytes "a.c"], entries := [c4row 1, c4row 2] }]

/-- Claim C4 counterexample: with two rows at the same address, the
address-to-line cache keeps the later row while the line-to-address cache
keeps each line's first address, so the round trip fails:
`line_to_address("a.c", 1) = 0` but `address_to_line(0)` reports line 2. -/
theorem c4_counterexample :
    ¬ (∀ a, line_to_address (buildCache c4cexCUs).line (strBytes "a.c") 1 = some a →
      ∃ loc, address_to_line (buildCache c4cexCUs).addr (a : Int) = some loc ∧
        loc.line = 1 ∧
        lower (basename loc.file) = lower (basename (strBytes "a.c"))) := by
  intro hcl
  obtain ⟨loc, h1, h2, _⟩ := hcl 0 (by decide)
  have hcomp : address_to_line (buildCache c4cexCUs).addr ((0 : Nat) : Int) =
      some { file := strBytes "a.c", line := 2, column := 0, address := 0 } := by
    decide
  rw [hcomp] at h1
  have : loc = { file := strBytes "a.c", line := 2, column := 0, address := 0 } :=
    (Option.some_inj.mp h1).symm
  rw [this] at h2
  exact absurd h2 (by decide)

/-- Claim C4 amended: the line-program round trip holds whenever the
recorded rows have pairwise distinct addresses: if
`line_to_address(f, l) = a` then `address_to_line(a)` returns a row with
line `l` whose file matches `f` by (case-insensitive) basename. As stated
the claim fails when two rows share an address, because the
address-to-line cache keeps only the last row per address while the
line-to-address cache keeps the first address per `(file, line)`. -/
theorem c4_roundtrip_amended (cus : List CUData)
    (hnd : ((recordedRows cus).map (fun loc => loc.address)).Nodup)
    (f : List Nat) (l : Nat) (a : Nat)
    (hres : line_to_address (buildCache cus).line f l = some a) :
    ∃ loc, address_to_line (buildCache cus).addr (a : Int) = some loc ∧
      loc.line = l ∧ lower (basename loc.file) = lower (basename f) := by
  obtain ⟨f2, hqmem, hmatch⟩ := line_to_address_found _ f l a hres
  obtain ⟨cu, hcu, loc, hloc, hqe⟩ := (buildCache_sound cus).2 _ hqmem
  have hfile : loc.file = f2 := (congrArg (fun q => q.1.1) hqe).symm
  have hline : loc.line = l := (congrArg (fun q => q.1.2) hqe).symm
  have haddr : loc.address = a := (congrArg (fun q => q.2) hqe).symm
  have hrows : loc ∈ recordedRows cus := by
    unfold recordedRows
    rw [List.mem_flatten]
    exact ⟨recordedOfCU cu, List.mem_map_of_mem _ hcu, hloc⟩
  have hmemaddr : (a, loc) ∈ (buildCache cus).addr := by
    rw [buildCache_addr_eq cus hnd, ← haddr]
    exact List.mem_map_of_mem _ hrows
  have hndkeys : ((buildCache cus).addr.map Prod.fst).Nodup := by
    rw [buildCache_addr_eq cus hnd, List.map_map]
    simpa [Function.comp] using hnd
  refine ⟨loc, address_to_line_exact _ a loc hndkeys hmemaddr, hline, ?_⟩
  rw [hfile]
  exact hmatch

/-- The CU for the C4 witness: one `trampolines.cpp` row. -/
def c4okState : LPState :=
  { end_sequence := false, file := 2, line := 10, column := 0, address := 10598 }

def c4okCUs : List CUData :=
  [{ filePaths := [strBytes "unknown", strBytes "trampolines.cpp"]
     entries := [{ state := some c4okState }] }]

theorem c4_roundtrip_amended_witness :
    ∃ loc, address_to_line (buildCache c4okCUs).addr ((10598 : Nat) : Int) = some loc ∧
      loc.line = 10 ∧
      lower (basename loc.file) = lower (basename (strBytes "trampolines.cpp")) :=
  c4_roundtrip_amended c4okCUs (by decide) (strBytes "trampolines.cpp") 10 10598
    (by decide)

/-! ## Claim C5 -/

/-- CU of the C5 counterexample: a standard file table with one entry, but
a row referencing file 1 — which `_build_cache`'s `state.file - 1`
indexing sends to the index-0 placeholder, producing a cached mapping with
file `"unknown"`. -/
def c5cexState : LPState :=
  { end_sequence := false, file := 1, line := 10, column := 0, address := 100 }

def c5cexCUs : List CUData :=
  [{ filePaths := build_file_paths [{ name := strBytes "a.c", dir_index := 0 }] [] none
     entries := [{ state := some c5cexState }] }]

/-- Claim C5 counterexample: the standard file-table path stores a mapping
whose file field is the literal string `"unknown"`. -/
theorem c5_counterexample :
    ¬ (∀ p ∈ (buildCache c5cexCUs).addr, p.2.file ≠ strBytes "unknown") := by
  intro hcl
  exact hcl (100, { file := strBytes "unknown", line := 10, column := 0, address := 100 })
    (by decide) rfl

theorem build_file_paths_slot (fe : List FileEntry) (incl : List (List Nat))
    (cd : Option (List Nat)) (j : Nat) (h1 : 1 ≤ j)
    (h2 : j < (build_file_paths fe incl cd).length)
    (hnames : ∀ f ∈ fe, f.name ≠ strBytes "unknown") :
    (build_file_paths fe incl cd).getD j unknownName ≠ strBytes "unknown" := by
  rcases j with _ | j2
  · omega
  · simp only [build_file_paths, List.getD_cons_succ]
    have hj2 : j2 < (fe.map (fun f =>
        if f.dir_index = 0 then
          match cd with
          | some cdv => pathJoin cdv f.name
          | none => f.name
        else if f.dir_index - 1 < incl.length then
          pathJoin (incl.getD (f.dir_index - 1) []) f.name
        else f.name)).length := by
      simp only [build_file_paths, List.length_cons, List.length_map] at h2 ⊢
      omega
    have hmem : (fe.map (fun f =>
        if f.dir_index = 0 then
          match cd with
          | some cdv => pathJoin cdv f.name
          | none => f.name
        else if f.dir_index - 1 < incl.length then
          pathJoin (incl.getD (f.dir_index - 1) []) f.name
        else f.name)).getD j2 unknownName ∈ (fe.map (fun f =>
        if f.dir_index = 0 then
          match cd with
          | some cdv => pathJoin cdv f.name
          | none => f.name
        else if f.dir_index - 1 < incl.length then
          pathJoin (incl.getD (f.dir_index - 1) []) f.name
        else f.name)) := by
      rw [List.getD_eq_getElem?_getD, List.getElem?_eq_getElem hj2]
      exact List.getElem_mem hj2
    obtain ⟨fentry, hfmem, hge⟩ := List.mem_map.mp hmem
    rw [← hge]
    by_cases hd : fentry.dir_index = 0
    · rcases cd with _ | cdv
      · simp only [if_pos hd]
        exact hnames fentry hfmem
      · simp only [if_pos hd]
        exact pathJoin_ne_unknown _ _
    · by_cases hincl : fentry.dir_index - 1 < incl.length
      · simp only [if_neg hd, if_pos hincl]
        exact pathJoin_ne_unknown _ _
      · simp only [if_neg hd, if_neg hincl]
        exact hnames fentry hfmem

theorem watcom_slot (nm : List Nat) (j : Nat) (h1 : 1 ≤ j) (h2 : j < 3)
    (hne : nm ≠ strBytes "unknown") :
    (build_file_paths_watcom (some nm)).getD j unknownName ≠ strBytes "unknown" := by
  have hj : j = 1 ∨ j = 2 := by omega
  rcases hj with rfl | rfl
  · exact hne
  · exact hne

/-- Claim C5 amended: the cached file field is never the literal
`"unknown"` provided every recorded row's file number selects a genuinely
built table slot — standard path: `2 ≤ state.file ≤ len(file_paths)` with
no file-entry named `"unknown"`; Watcom path: same index range with the CU
name present and not itself `"unknown"`. As stated the claim fails: rows
whose index lands on the index-0 placeholder (`state.file = 1`), falls out
of range, or hits a missing CU name are cached with file `"unknown"`. -/
theorem c5_no_unknown_amended (cus : List CUData)
    (hpaths : ∀ cu ∈ cus,
      (∃ fe incl cd, cu.filePaths = build_file_paths fe incl cd ∧
        ∀ f ∈ fe, f.name ≠ strBytes "unknown")
      ∨ (∃ nm, cu.filePaths = build_file_paths_watcom (some nm) ∧
        nm ≠ strBytes "unknown"))
    (hidx : ∀ cu ∈ cus, ∀ e ∈ cu.entries, ∀ st, e.state = some st →
      st.end_sequence = false → 2 ≤ st.file ∧ st.file ≤ cu.filePaths.length) :
    (∀ p ∈ (buildCache cus).addr, p.2.file ≠ strBytes "unknown") ∧
    (∀ q ∈ (buildCache cus).line, q.1.1 ≠ strBytes "unknown") := by
  have key : ∀ cu ∈ cus, ∀ loc ∈ recordedOfCU cu, loc.file ≠ strBytes "unknown" := by
    intro cu hcu loc hloc
    obtain ⟨e, he, hmap⟩ := List.mem_filterMap.mp hloc
    rcases hst : e.state with _ | st
    · simp only [hst] at hmap
      exact Option.noConfusion hmap
    · simp only [hst] at hmap
      by_cases hes : st.end_sequence = true
      · rw [if_pos hes] at hmap
        exact Option.noConfusion hmap
      · rw [Bool.not_eq_true] at hes
        rw [if_neg (by rw [hes]; exact Bool.false_ne_true)] at hmap
        have hloceq : loc = rowLoc cu.filePaths st := (Option.some_inj.mp hmap).symm
        obtain ⟨hf2, hflen⟩ := hidx cu hcu e he st hst hes
        have hguard : 1 ≤ st.file ∧ st.file - 1 < cu.filePaths.length := by omega
        have hfile : loc.file = cu.filePaths.getD (st.file - 1) unknownName := by
          rw [hloceq]
          show selectFilePath cu.filePaths st.file = _
          unfold selectFilePath
          rw [if_pos hguard]
        rw [hfile]
        rcases hpaths cu hcu with ⟨fe, incl, cd, hfp, hnames⟩ | ⟨nm, hfp, hne⟩
        · rw [hfp]
          apply build_file_paths_slot fe incl cd (st.file - 1) (by omega)
          · rw [← hfp]; omega
          · exact hnames
        · rw [hfp]
          apply watcom_slot nm (st.file - 1) (by omega)
          · have : cu.filePaths.length = 3 := by rw [hfp]; rfl
            omega
          · exact hne
  constructor
  · intro p hp
    obtain ⟨cu, hcu, loc, hloc, hpe⟩ := (buildCache_sound cus).1 p hp
    have : p.2 = loc := congrArg Prod.snd hpe
    rw [this]
    exact key cu hcu loc hloc
  · intro q hq
    obtain ⟨cu, hcu, loc, hloc, hqe⟩ := (buildCache_sound cus).2 q hq
    have : q.1.1 = loc.file := congrArg (fun x => x.1.1) hqe
    rw [this]
    exact key cu hcu loc hloc

/-- The CU for the C5 witness: a standard table whose single row selects
slot 1 (`state.file = 2`). -/
def c5okState : LPState :=
  { end_sequence := false, file := 2, line := 3, column := 0, address := 50 }

def c5okCUs : List CUData :=
  [{ filePaths := build_file_paths [{ name := strBytes "a.c", dir_index := 0 }] [] none
     entries := [{ state := some c5okState }] }]

theorem c5_no_unknown_amended_witness :
    (∀ p ∈ (buildCache c5okCUs).addr, p.2.file ≠ strBytes "unknown") ∧
    (∀ q ∈ (buildCache c5okCUs).line, q.1.1 ≠ strBytes "unknown") := by
  apply c5_no_unknown_amended
  · intro cu hcu
    simp only [c5okCUs, List.mem_singleton] at hcu
    subst hcu
    exact Or.inl ⟨[{ name := strBytes "a.c", dir_index := 0 }], [], none, rfl,
      by decide⟩
  · intro cu hcu e he st hst hes
    simp only [c5okCUs, List.mem_singleton] at hcu
    subst hcu
    simp only [List.mem_singleton] at he
    subst he
    simp only at hst
    have hsteq : st = c5okState := (Option.some_inj.mp hst).symm
    subst hsteq
    constructor
    · decide
    · decide

end Dgb

